
import Mathlib

/-!
Shallow embedding of `src/backend/core/card_processing.py` (the persistence
core of the flashcard repository) together with the SQLite schema created in
`src/backend/tests/test_card_processing.py`.

The SQLite store is modelled as four lists of rows (tables `answers`, `cards`,
`tags`, `card_tags`).  SQLite `INTEGER PRIMARY KEY` row ids are modelled as
`Int` with the fresh id for an insert being `max(existing ids, 0) + 1`, which
is SQLite's `lastrowid` behaviour for tables without `AUTOINCREMENT`.
Python booleans stored into an integer column become `0`/`1`; `bool(x)` on
read becomes `x ≠ 0`.  Errors raised by the Python code (`ValueError` for a
missing card id, `sqlite3.IntegrityError` for a composite-primary-key
violation on `card_tags`) are modelled by the `DbErr` type.  Each write
operation returns the committed store together with the error it raised, if
any; a raised error means the transaction was rolled back (update) or never
committed (insert), so the committed store is the pre-call one.
-/

set_option autoImplicit false

namespace Persist

/-- Row of the `answers` table. `part` models the `partial` column
(`partial` is reserved in Lean); same for the `Answers` record below. -/
structure AnswerRow where
  id : Int
  correct : Int
  part : Int
  incorrect : Int
  deriving Repr, DecidableEq

/-- Row of the `cards` table.  `retired` is the stored integer form of the
boolean flag; `images` is the raw `TEXT` column (`none` models SQL `NULL`). -/
structure CardRow where
  id : Int
  front : String
  back : String
  last_asked : String
  next_review : String
  retired : Int
  streak : Int
  images : Option String
  answers_id : Int
  deriving Repr, DecidableEq

/-- Row of the `tags` table (`id, name`), `name` is `UNIQUE NOT NULL`. -/
structure TagRow where
  id : Int
  name : String
  deriving Repr, DecidableEq

/-- Row of the `card_tags` table, composite primary key `(card_id, tag_id)`. -/
structure CardTagRow where
  card_id : Int
  tag_id : Int
  deriving Repr, DecidableEq

/-- The SQLite database: the four tables, each as a list of rows. -/
structure DB where
  answers : List AnswerRow
  cards : List CardRow
  tags : List TagRow
  card_tags : List CardTagRow
  deriving Repr, DecidableEq

/-- The nested `answers` dictionary of a card record returned by
`load_cards` and consumed by `update_cards`. -/
structure Answers where
  correct : Int
  part : Int
  incorrect : Int
  deriving Repr, DecidableEq

/-- A card dictionary as returned by `load_cards`. -/
structure Card where
  id : Int
  front : String
  back : String
  last_asked : String
  next_review : String
  retired : Bool
  tags : List String
  images : List String
  answers : Answers
  streak : Int
  deriving Repr, DecidableEq

/-- A card dictionary passed to `update_cards`. -/
structure CardUpdate where
  id : Int
  front : String
  back : String
  retired : Bool
  streak : Int
  answers : Answers
  tags : List String
  deriving Repr, DecidableEq

/-- A card dictionary passed to `add_cards`. -/
structure NewCard where
  front : String
  back : String
  tags : List String
  deriving Repr, DecidableEq

/-- Errors raised by the persistence core: `notFound` models the
`ValueError(f"Card with ID {id} not found")` of `update_cards`;
`constraint` models a `sqlite3.IntegrityError` (here: violating the
composite primary key of `card_tags`); `badJson` models the
`json.JSONDecodeError` that `json.loads` raises on a malformed
`images` column. -/
inductive DbErr where
  | notFound (id : Int)
  | constraint
  | badJson
  deriving Repr, DecidableEq

/-- `max(ids, 0)`: SQLite assigns `lastrowid = maxId ids + 1` to a row
inserted without an explicit id. -/
def maxId (ids : List Int) : Int :=
  ids.foldl max 0

/-! ### Python string operations used by `load_cards`

`tags.split(",")` splits at every comma, keeping empty segments; it is
modelled character by character by `splitCommaAux`.  SQL
`GROUP_CONCAT(names, ',')` is `NULL` on an empty group and otherwise the
names joined by commas (`joinCommaAux`). -/

def splitCommaAux : List Char → List (List Char)
  | [] => [[]]
  | c :: cs =>
    if c = ',' then [] :: splitCommaAux cs
    else
      match splitCommaAux cs with
      | [] => [[c]]
      | seg :: rest => (c :: seg) :: rest

/-- Python `s.split(",")`. -/
def pySplitComma (s : String) : List String :=
  (splitCommaAux s.toList).map String.mk

def joinCommaAux : List (List Char) → List Char
  | [] => []
  | [l] => l
  | l :: ls => l ++ ',' :: joinCommaAux ls

/-- SQL `GROUP_CONCAT(·, ',')` over the non-`NULL` values of a group:
`NULL` (`none`) when the group is empty. -/
def groupConcat (names : List String) : Option String :=
  match names with
  | [] => none
  | _ => some (String.mk (joinCommaAux (names.map String.toList)))

/-- The Python line `tags = tags.split(",") if tags else []`: both SQL
`NULL` and the empty string are falsy and give `[]`. -/
def pyTagsField (s : Option String) : List String :=
  match s with
  | none => []
  | some s => if s = "" then [] else pySplitComma s

/-! ### `json.loads` for the `images` column

The repository only ever stores JSON arrays of string literals in the
`images` column (schema default `'[]'`, tests store `json.dumps([...])` of
file names).  `parseJsonStringList` models `json.loads` restricted to that
shape: arrays of escape-free string literals, with optional blanks; any
other content is malformed and modelled as a decode error. -/

/-- Consume characters of a string literal up to the closing quote. -/
def scanStringLit : List Char → Option (List Char × List Char)
  | [] => none
  | c :: cs =>
    if c = '"' then some ([], cs)
    else (scanStringLit cs).map (fun p => (c :: p.1, p.2))

/-- Skip blanks (the separators `json.dumps` emits). -/
def skipWs : List Char → List Char
  | [] => []
  | c :: cs => if c = ' ' then skipWs cs else c :: cs

/-- Parse `"item" , "item" , ... ]` with the given fuel. -/
def parseItems : Nat → List Char → Option (List String)
  | 0, _ => none
  | n + 1, cs =>
    match scanStringLit cs with
    | none => none
    | some (item, rest) =>
      match skipWs rest with
      | ']' :: rest' => if skipWs rest' = [] then some [String.mk item] else none
      | ',' :: rest' =>
        match skipWs rest' with
        | '"' :: rest'' => (parseItems n rest'').map (String.mk item :: ·)
        | _ => none
      | _ => none

/-- `json.loads` restricted to arrays of escape-free string literals. -/
def parseJsonStringList (s : String) : Option (List String) :=
  match skipWs s.toList with
  | '[' :: rest =>
    match skipWs rest with
    | ']' :: rest' => if skipWs rest' = [] then some [] else none
    | '"' :: rest' => parseItems (rest'.length + 1) rest'
    | _ => none
  | _ => none

/-- The Python line `images = json.loads(images_json) if images_json else []`:
SQL `NULL` and the empty string are falsy and give `[]`; otherwise the
stored text is decoded, a decode failure raising an error. -/
def decodeImages (s : Option String) : Except DbErr (List String) :=
  match s with
  | none => .ok []
  | some s =>
    if s = "" then .ok []
    else
      match parseJsonStringList s with
      | some l => .ok l
      | none => .error .badJson

/-! ### `load_cards` -/

/-- Tag names joined to a card by the two `LEFT JOIN`s of `load_cards`:
for each `card_tags` row of the card, the name of the tag row it references
(a dangling reference yields a `NULL` name, which `GROUP_CONCAT` skips). -/
def groupTagNames (db : DB) (cid : Int) : List String :=
  (db.card_tags.filter (fun ct => ct.card_id == cid)).filterMap
    (fun ct => (db.tags.find? (fun t => t.id == ct.tag_id)).map (fun t => t.name))

/-- One row of the `load_cards` query plus the Python post-processing:
`none` when the inner `JOIN answers` drops the card. -/
def loadRow (db : DB) (r : CardRow) : Except DbErr (Option Card) :=
  match db.answers.find? (fun a => a.id == r.answers_id) with
  | none => .ok none
  | some a =>
    match decodeImages r.images with
    | .error e => .error e
    | .ok imgs =>
      .ok (some
        { id := r.id
          front := r.front
          back := r.back
          last_asked := r.last_asked
          next_review := r.next_review
          retired := r.retired != 0
          tags := pyTagsField (groupConcat (groupTagNames db r.id))
          images := imgs
          answers := { correct := a.correct, part := a.part, incorrect := a.incorrect }
          streak := r.streak })

def loadRows (db : DB) : List CardRow → Except DbErr (List Card)
  | [] => .ok []
  | r :: rs =>
    match loadRow db r with
    | .error e => .error e
    | .ok none => loadRows db rs
    | .ok (some c) =>
      match loadRows db rs with
      | .error e => .error e
      | .ok cs => .ok (c :: cs)

/-- `load_cards()`: the `SELECT ... JOIN answers ... LEFT JOIN card_tags ...
LEFT JOIN tags ... GROUP BY c.id` query followed by the Python row loop. -/
def load_cards (db : DB) : Except DbErr (List Card) :=
  loadRows db db.cards

/-! ### Tag resolution

Both writers resolve a tag name with the same two statements:
`INSERT OR IGNORE INTO tags (name) VALUES (tag.lower())` followed by
`SELECT id FROM tags WHERE name = tag.lower()`. -/

/-- Python `str.lower()`, character by character (this repository's tag
names are ASCII, where `Char.toLower` agrees with Python). -/
def strLower (s : String) : String :=
  String.mk (s.toList.map Char.toLower)

/-- Resolve a tag name to a tag id, creating the row if absent.  Returns the
resolved id and the store after the `INSERT OR IGNORE`. -/
def resolveTag (db : DB) (tag : String) : Int × DB :=
  match db.tags.find? (fun t => t.name == (strLower tag)) with
  | some t => (t.id, db)
  | none =>
    (maxId (db.tags.map (fun t => t.id)) + 1,
     { db with tags := db.tags ++
         [{ id := maxId (db.tags.map (fun t => t.id)) + 1, name := (strLower tag) }] })

/-- One iteration of the tag loop shared by `update_cards` and `add_cards`:
resolve the tag name, then `INSERT INTO card_tags (card_id, tag_id)`.  That
insert has no `OR IGNORE`, so a link already present violates the composite
primary key and raises an `IntegrityError`. -/
def linkStep (cid : Int) (db : DB) (tag : String) : Except DbErr DB :=
  if (resolveTag db tag).2.card_tags.any
      (fun ct => ct.card_id == cid && ct.tag_id == (resolveTag db tag).1) then
    .error .constraint
  else
    .ok { (resolveTag db tag).2 with
          card_tags := (resolveTag db tag).2.card_tags ++
            [{ card_id := cid, tag_id := (resolveTag db tag).1 }] }

/-- The `for tag in card["tags"]` loop. -/
def insertTagLinks (cid : Int) : List String → DB → Except DbErr DB
  | [], db => .ok db
  | tag :: rest, db =>
    match linkStep cid db tag with
    | .error e => .error e
    | .ok db2 => insertTagLinks cid rest db2

/-! ### `update_cards` -/

/-- The row change of `UPDATE cards SET front = ?, back = ?, retired = ?,
streak = ? WHERE id = ?`; the driver stores the Python bool as `1`/`0`. -/
def updateCardRow (c : CardUpdate) (r : CardRow) : CardRow :=
  if r.id == c.id then
    { r with front := c.front, back := c.back,
             retired := if c.retired then 1 else 0, streak := c.streak }
  else r

/-- The row change of `UPDATE answers SET correct = ?, partial = ?,
incorrect = ? WHERE id = ?`. -/
def updateAnswerRow (c : CardUpdate) (aid : Int) (a : AnswerRow) : AnswerRow :=
  if a.id == aid then
    { a with correct := c.answers.correct, part := c.answers.part,
             incorrect := c.answers.incorrect }
  else a

/-- The body of the `for card in cards` loop of `update_cards`, acting on the
in-transaction store: existence check, `UPDATE cards`, `UPDATE answers`
keyed by the scalar subquery `(SELECT answers_id FROM cards WHERE id = ?)`
run against the already-updated `cards` table (a `NULL` subquery result
updates no row), `DELETE FROM card_tags WHERE card_id = ?`, tag loop. -/
def applyUpdate (db : DB) (c : CardUpdate) : Except DbErr DB :=
  match db.cards.find? (fun r => r.id == c.id) with
  | none => .error (.notFound c.id)
  | some _ =>
    match (db.cards.map (updateCardRow c)).find? (fun r => r.id == c.id) with
    | none =>
      insertTagLinks c.id c.tags
        { db with
          cards := db.cards.map (updateCardRow c),
          card_tags := db.card_tags.filter (fun ct => !(ct.card_id == c.id)) }
    | some r =>
      insertTagLinks c.id c.tags
        { db with
          cards := db.cards.map (updateCardRow c),
          answers := db.answers.map (updateAnswerRow c r.answers_id),
          card_tags := db.card_tags.filter (fun ct => !(ct.card_id == c.id)) }

def updateLoop : List CardUpdate → DB → Except DbErr DB
  | [], db => .ok db
  | c :: cs, db =>
    match applyUpdate db c with
    | .error e => .error e
    | .ok db' => updateLoop cs db'

/-- `update_cards(cards)`: one transaction around the whole batch; on success
the loop's final store is committed, on any raised error the transaction is
rolled back, leaving the committed store unchanged, and the error
propagates.  The result is the committed store paired with the raised
error, if any. -/
def update_cards (cards : List CardUpdate) (db : DB) : DB × Option DbErr :=
  match updateLoop cards db with
  | .ok db' => (db', none)
  | .error e => (db, some e)

/-! ### `add_cards` -/

/-- The body of the `for card in new_cards` loop of `add_cards`: insert an
`answers` row with zero counts, insert a `cards` row with the default dates
`"2024-01-01"`, `retired = False`, `streak = 0`, the fresh `answers_id` and
the schema-default `images` text `'[]'`, then link the tags. -/
def applyInsert (db : DB) (c : NewCard) : Except DbErr DB :=
  let aid := maxId (db.answers.map (fun a => a.id)) + 1
  let db1 : DB :=
    { db with answers := db.answers ++ [{ id := aid, correct := 0, part := 0, incorrect := 0 }] }
  let cid := maxId (db1.cards.map (fun r => r.id)) + 1
  let db2 : DB :=
    { db1 with
      cards := db1.cards ++
        [{ id := cid, front := c.front, back := c.back,
           last_asked := "2024-01-01", next_review := "2024-01-01",
           retired := 0, streak := 0, images := some "[]", answers_id := aid }] }
  insertTagLinks cid c.tags db2

def insertLoop : List NewCard → DB → Except DbErr DB
  | [], db => .ok db
  | c :: cs, db =>
    match applyInsert db c with
    | .error e => .error e
    | .ok db' => insertLoop cs db'

/-- `add_cards(new_cards)`: the loop runs in the implicit transaction the
sqlite3 driver opens at the first `INSERT`; `conn.commit()` is reached only
when no statement raised, so a raised error leaves the committed store
unchanged (the connection is dropped without a commit) and propagates. -/
def add_cards (new_cards : List NewCard) (db : DB) : DB × Option DbErr :=
  match insertLoop new_cards db with
  | .ok db' => (db', none)
  | .error e => (db, some e)

/-! ### Well-formedness

The schema constraints and invariants a concretely reachable store
satisfies: primary keys are unique (`cards.id`, `answers.id`, `tags.id`,
the composite key of `card_tags`), `tags.name` is `UNIQUE`, links reference
existing rows, and distinct cards own distinct `answers` rows. -/

def WF (db : DB) : Prop :=
  (db.cards.map (fun r => r.id)).Nodup ∧
  (db.answers.map (fun a => a.id)).Nodup ∧
  (db.tags.map (fun t => t.id)).Nodup ∧
  (db.tags.map (fun t => t.name)).Nodup ∧
  db.card_tags.Nodup ∧
  (∀ ct ∈ db.card_tags, ∃ r ∈ db.cards, r.id = ct.card_id) ∧
  (∀ ct ∈ db.card_tags, ∃ t ∈ db.tags, t.id = ct.tag_id) ∧
  (db.cards.map (fun r => r.answers_id)).Nodup ∧
  (∀ r ∈ db.cards, ∃ a ∈ db.answers, a.id = r.answers_id)

instance decWF (db : DB) : Decidable (WF db) := by
  unfold WF
  infer_instance

/-! ### Basic list lemmas -/

/-- The card-row fields `update_cards` never writes: identifier, the two
review dates, the image text, and the stored stats reference. -/
def preservesCardFrame (r r' : CardRow) : Prop :=
  r'.id = r.id ∧ r'.last_asked = r.last_asked ∧ r'.next_review = r.next_review ∧
  r'.images = r.images ∧ r'.answers_id = r.answers_id

/-- The `answers` row `add_cards` creates for one new card. -/
def newAnswerRow (db : DB) : AnswerRow :=
  { id := maxId (db.answers.map (fun a => a.id)) + 1,
    correct := 0, part := 0, incorrect := 0 }

/-- The `cards` row `add_cards` creates for one new card: default dates,
`retired = False`, `streak = 0`, the schema-default `images` text, the fresh
stats reference. -/
def newCardRow (db : DB) (n : NewCard) : CardRow :=
  { id := maxId (db.cards.map (fun r => r.id)) + 1,
    front := n.front, back := n.back, last_asked := "2024-01-01",
    next_review := "2024-01-01", retired := 0, streak := 0,
    images := some "[]",
    answers_id := maxId (db.answers.map (fun a => a.id)) + 1 }

/-- The store the repository's pytest fixture builds: one card with stats
`(5, 2, 1)`, streak 3, one image, one linked tag `"python"`. -/
def fixtureDB : DB :=
  { answers := [{ id := 1, correct := 5, part := 2, incorrect := 1 }],
    cards := [{ id := 1, front := "Test Front", back := "Test Back",
                last_asked := "2024-01-01", next_review := "2024-01-01",
                retired := 0, streak := 3, images := some "[\"image1.jpg\"]",
                answers_id := 1 }],
    tags := [{ id := 1, name := "python" }],
    card_tags := [{ card_id := 1, tag_id := 1 }] }

/-- An update whose id is absent from `fixtureDB`. -/
def missingIdUpdate : CardUpdate :=
  { id := 2, front := "F", back := "B", retired := false, streak := 0,
    answers := { correct := 0, part := 0, incorrect := 0 }, tags := ["x"] }

/-- An update of the fixture card whose tag list lowercases to a repeat. -/
def dupTagsUpdate : CardUpdate :=
  { id := 1, front := "F", back := "B", retired := false, streak := 0,
    answers := { correct := 0, part := 0, incorrect := 0 }, tags := ["x", "X"] }

/-- An insert whose tag list lowercases to a repeat. -/
def dupTagsNew : NewCard :=
  { front := "F", back := "B", tags := ["x", "X"] }

/-- A store holding one card with no tag links (and one unlinked tag row). -/
def noTagsDB : DB :=
  { answers := [{ id := 1, correct := 0, part := 0, incorrect := 0 }],
    cards := [{ id := 1, front := "f", back := "b", last_asked := "2024-01-01",
                next_review := "2024-01-01", retired := 0, streak := 0,
                images := some "[]", answers_id := 1 }],
    tags := [{ id := 1, name := "a" }],
    card_tags := [] }

/-- The single row of `noTagsDB.cards`. -/
def noTagsRow : CardRow :=
  { id := 1, front := "f", back := "b", last_asked := "2024-01-01",
    next_review := "2024-01-01", retired := 0, streak := 0,
    images := some "[]", answers_id := 1 }

/-- What `load_cards noTagsDB` returns for that row. -/
def noTagsCard : Card :=
  { id := 1, front := "f", back := "b", last_asked := "2024-01-01",
    next_review := "2024-01-01", retired := false, tags := [],
    images := [], answers := { correct := 0, part := 0, incorrect := 0 },
    streak := 0 }

/-- A store whose single tag is named `"a,b"` — a name containing the
`GROUP_CONCAT` separator — linked to its single card. -/
def dbComma : DB :=
  { answers := [{ id := 1, correct := 0, part := 0, incorrect := 0 }],
    cards := [{ id := 1, front := "f", back := "b", last_asked := "2024-01-01",
                next_review := "2024-01-01", retired := 0, streak := 0,
                images := some "[]", answers_id := 1 }],
    tags := [{ id := 1, name := "a,b" }],
    card_tags := [{ card_id := 1, tag_id := 1 }] }

/-- What `load_cards fixtureDB` returns. -/
def fixtureCard : Card :=
  { id := 1, front := "Test Front", back := "Test Back",
    last_asked := "2024-01-01", next_review := "2024-01-01",
    retired := false, tags := ["python"], images := ["image1.jpg"],
    answers := { correct := 5, part := 2, incorrect := 1 }, streak := 3 }

/-- The update the repository's pytest `test_update_cards` sends. -/
def valuesUpdate : CardUpdate :=
  { id := 1, front := "New Front", back := "New Back", retired := true,
    streak := 5, answers := { correct := 6, part := 2, incorrect := 2 },
    tags := ["python", "math"] }

/-- The store `update_cards [valuesUpdate]` commits over `fixtureDB`. -/
def fixtureUpdatedDB : DB :=
  { answers := [{ id := 1, correct := 6, part := 2, incorrect := 2 }],
    cards := [{ id := 1, front := "New Front", back := "New Back",
                last_asked := "2024-01-01", next_review := "2024-01-01",
                retired := 1, streak := 5, images := some "[\"image1.jpg\"]",
                answers_id := 1 }],
    tags := [{ id := 1, name := "python" }, { id := 2, name := "math" }],
    card_tags := [{ card_id := 1, tag_id := 1 }, { card_id := 1, tag_id := 2 }] }

/-- What `load_cards` shows for a freshly inserted card: the fresh id, the
supplied texts, default dates, normalized tags, empty images, zero stats. -/
def newLoadedCard (db : DB) (n : NewCard) : Card :=
  { id := maxId (db.cards.map (fun r => r.id)) + 1, front := n.front,
    back := n.back, last_asked := "2024-01-01", next_review := "2024-01-01",
    retired := false, tags := n.tags.map strLower, images := [],
    answers := { correct := 0, part := 0, incorrect := 0 }, streak := 0 }

/-- The empty store. -/
def emptyDB : DB := { answers := [], cards := [], tags := [], card_tags := [] }

/-- A store with one card linked to the tags `{"a","b"}`. -/
def twoTagsDB : DB :=
  { answers := [{ id := 1, correct := 0, part := 0, incorrect := 0 }],
    cards := [{ id := 1, front := "f", back := "b", last_asked := "2024-01-01",
                next_review := "2024-01-01", retired := 0, streak := 0,
                images := some "[]", answers_id := 1 }],
    tags := [{ id := 1, name := "a" }, { id := 2, name := "b" }],
    card_tags := [{ card_id := 1, tag_id := 1 }, { card_id := 1, tag_id := 2 }] }

/-- An update replacing that card's tag set by `{"b","c"}`. -/
def replaceTagsUpdate : CardUpdate :=
  { id := 1, front := "f", back := "b", retired := false, streak := 0,
    answers := { correct := 0, part := 0, incorrect := 0 }, tags := ["b", "c"] }

/-- The store after that update: links now `{b, c}`; the `"a"` row remains. -/
def twoTagsUpdatedDB : DB :=
  { answers := [{ id := 1, correct := 0, part := 0, incorrect := 0 }],
    cards := [{ id := 1, front := "f", back := "b", last_asked := "2024-01-01",
                next_review := "2024-01-01", retired := 0, streak := 0,
                images := some "[]", answers_id := 1 }],
    tags := [{ id := 1, name := "a" }, { id := 2, name := "b" },
             { id := 3, name := "c" }],
    card_tags := [{ card_id := 1, tag_id := 2 }, { card_id := 1, tag_id := 3 }] }

/-- What `load_cards` then shows for the card. -/
def twoTagsUpdatedCard : Card :=
  { id := 1, front := "f", back := "b", last_asked := "2024-01-01",
    next_review := "2024-01-01", retired := false, tags := ["b", "c"],
    images := [], answers := { correct := 0, part := 0, incorrect := 0 },
    streak := 0 }

theorem init_le_foldl_max (l : List Int) (init : Int) : init ≤ l.foldl max init := by
  induction l generalizing init with
  | nil => exact le_refl _
  | cons a l ih => exact le_trans (le_max_left init a) (ih (max init a))

theorem le_foldl_max (l : List Int) (init : Int) {x : Int} (hx : x ∈ l) :
    x ≤ l.foldl max init := by
  induction l generalizing init with
  | nil => cases hx
  | cons a l ih =>
    rcases List.mem_cons.mp hx with rfl | hx'
    · exact le_trans (le_max_right init x) (init_le_foldl_max l (max init x))
    · exact ih (max init a) hx'

theorem le_maxId {ids : List Int} {x : Int} (hx : x ∈ ids) : x ≤ maxId ids :=
  le_foldl_max ids 0 hx

theorem maxId_add_one_not_mem {ids : List Int} : maxId ids + 1 ∉ ids := by
  intro h
  exact absurd (le_maxId h) (by omega)

/-- `find?` by a key is the element itself when the keys are distinct. -/
theorem find?_key_eq {α κ : Type} [DecidableEq κ] (key : α → κ) {l : List α} {a : α}
    (hnd : (l.map key).Nodup) (ha : a ∈ l) :
    l.find? (fun x => key x == key a) = some a := by
  induction l with
  | nil => cases ha
  | cons b l ih =>
    rcases List.mem_cons.mp ha with rfl | ha'
    · exact List.find?_cons_of_pos _ (by simp)
    · have hb : key b ≠ key a := by
        intro he
        exact (List.nodup_cons.mp hnd).1 (he ▸ List.mem_map_of_mem key ha')
      rw [List.find?_cons_of_neg _ (by simp [hb])]
      exact ih (List.nodup_cons.mp hnd).2 ha'

theorem find?_append_some {α : Type} {l l' : List α} {p : α → Bool} {a : α}
    (h : l.find? p = some a) : (l ++ l').find? p = some a := by
  simp [List.find?_append, h]

theorem find?_append_none {α : Type} {l l' : List α} {p : α → Bool}
    (h : l.find? p = none) : (l ++ l').find? p = l'.find? p := by
  simp [List.find?_append, h]

/-! ### The comma split / join inverse -/

theorem splitCommaAux_ne_nil (l : List Char) : splitCommaAux l ≠ [] := by
  induction l with
  | nil => simp [splitCommaAux]
  | cons c cs ih =>
    by_cases hc : c = ','
    · simp [splitCommaAux, hc]
    · simp only [splitCommaAux, if_neg hc]
      cases h : splitCommaAux cs with
      | nil => simp
      | cons seg rest => simp

theorem splitCommaAux_nocomma {l : List Char} (h : ',' ∉ l) : splitCommaAux l = [l] := by
  induction l with
  | nil => rfl
  | cons c cs ih =>
    have hc : ¬ c = ',' := fun he => h (he ▸ List.mem_cons_self c cs)
    have hcs : ',' ∉ cs := fun hm => h (List.mem_cons_of_mem c hm)
    simp only [splitCommaAux, if_neg hc, ih hcs]

theorem splitCommaAux_append {l rest : List Char} (h : ',' ∉ l) :
    splitCommaAux (l ++ ',' :: rest) = l :: splitCommaAux rest := by
  induction l with
  | nil => simp [splitCommaAux]
  | cons c cs ih =>
    have hc : ¬ c = ',' := fun he => h (he ▸ List.mem_cons_self c cs)
    have hcs : ',' ∉ cs := fun hm => h (List.mem_cons_of_mem c hm)
    simp only [List.cons_append, splitCommaAux, if_neg hc, List.append_eq, ih hcs]

theorem joinCommaAux_ne_nil {ls : List (List Char)} (hne : ls ≠ [])
    (h : ∀ l ∈ ls, l ≠ []) : joinCommaAux ls ≠ [] := by
  match ls with
  | [] => exact absurd rfl hne
  | [l] => exact h l (List.mem_singleton_self l)
  | l :: l' :: ls => simp [joinCommaAux]

theorem splitCommaAux_joinCommaAux {ls : List (List Char)} (hne : ls ≠ [])
    (hc : ∀ l ∈ ls, ',' ∉ l) : splitCommaAux (joinCommaAux ls) = ls := by
  match ls with
  | [] => exact absurd rfl hne
  | [l] => exact splitCommaAux_nocomma (hc l (List.mem_singleton_self l))
  | l :: l' :: ls =>
    have h1 : ',' ∉ l := hc l (List.mem_cons_self _ _)
    have h2 : ∀ x ∈ l' :: ls, ',' ∉ x := fun x hx => hc x (List.mem_cons_of_mem l hx)
    calc splitCommaAux (l ++ ',' :: joinCommaAux (l' :: ls))
        = l :: splitCommaAux (joinCommaAux (l' :: ls)) := splitCommaAux_append h1
      _ = l :: l' :: ls := by rw [splitCommaAux_joinCommaAux (by simp) h2]

theorem mk_toList (s : String) : String.mk s.toList = s := rfl

theorem toList_eq_nil_iff (s : String) : s.toList = [] ↔ s = "" := by
  constructor
  · intro h
    have := congrArg String.mk h
    rwa [mk_toList] at this
  · intro h
    rw [h]
    rfl

/-- The tags of a card round-trip through `GROUP_CONCAT` followed by the
Python `split(",")` exactly when every name is nonempty and comma-free. -/
theorem pyTagsField_groupConcat {names : List String}
    (h : ∀ n ∈ names, n ≠ "" ∧ ',' ∉ n.toList) :
    pyTagsField (groupConcat names) = names := by
  match names with
  | [] => rfl
  | n :: ns =>
    have hne : (n :: ns).map String.toList ≠ [] := by simp
    have hnn : ∀ l ∈ (n :: ns).map String.toList, l ≠ [] := by
      intro l hl
      rcases List.mem_map.mp hl with ⟨m, hm, rfl⟩
      exact fun he => ((h m hm).1 ((toList_eq_nil_iff m).mp he))
    have hnc : ∀ l ∈ (n :: ns).map String.toList, ',' ∉ l := by
      intro l hl
      rcases List.mem_map.mp hl with ⟨m, hm, rfl⟩
      exact (h m hm).2
    have hjoin : joinCommaAux ((n :: ns).map String.toList) ≠ [] :=
      joinCommaAux_ne_nil hne hnn
    have hstr : String.mk (joinCommaAux ((n :: ns).map String.toList)) ≠ "" := by
      intro he
      exact hjoin (by simpa using congrArg String.toList he)
    simp only [groupConcat, pyTagsField, if_neg hstr, pySplitComma]
    have : (String.mk (joinCommaAux ((n :: ns).map String.toList))).toList
        = joinCommaAux ((n :: ns).map String.toList) := rfl
    rw [this, splitCommaAux_joinCommaAux hne hnc]
    simp [List.map_map, Function.comp_def, mk_toList]

/-! ### `resolveTag` lemmas -/

theorem resolveTag_answers (db : DB) (tag : String) :
    (resolveTag db tag).2.answers = db.answers := by
  unfold resolveTag
  cases hf : db.tags.find? (fun t => t.name == (strLower tag)) <;> simp [hf]

theorem resolveTag_cards (db : DB) (tag : String) :
    (resolveTag db tag).2.cards = db.cards := by
  unfold resolveTag
  cases hf : db.tags.find? (fun t => t.name == (strLower tag)) <;> simp [hf]

theorem resolveTag_card_tags (db : DB) (tag : String) :
    (resolveTag db tag).2.card_tags = db.card_tags := by
  unfold resolveTag
  cases hf : db.tags.find? (fun t => t.name == (strLower tag)) <;> simp [hf]

theorem resolveTag_tags_append (db : DB) (tag : String) :
    ∃ ts, (resolveTag db tag).2.tags = db.tags ++ ts := by
  unfold resolveTag
  cases h : db.tags.find? (fun t => t.name == (strLower tag)) with
  | some t => exact ⟨[], by simp [h]⟩
  | none =>
    exact ⟨[{ id := maxId (db.tags.map (fun t => t.id)) + 1, name := (strLower tag) }],
      by simp [h]⟩

/-- After resolution, looking the normalized name up finds a row carrying the
resolved id and the normalized name. -/
theorem resolveTag_find (db : DB) (tag : String) :
    (resolveTag db tag).2.tags.find? (fun t => t.name == (strLower tag))
      = some { id := (resolveTag db tag).1, name := (strLower tag) } := by
  unfold resolveTag
  cases h : db.tags.find? (fun t => t.name == (strLower tag)) with
  | some t =>
    have hname : t.name = (strLower tag) := by
      have := List.find?_some h
      simpa using this
    simp only [h]
    exact congrArg some (by cases t; simp_all)
  | none =>
    simp only [h]
    rw [find?_append_none h]
    simp [List.find?_cons]

theorem resolveTag_mem (db : DB) (tag : String) :
    { id := (resolveTag db tag).1, name := (strLower tag) : TagRow }
      ∈ (resolveTag db tag).2.tags :=
  List.mem_of_find?_eq_some (resolveTag_find db tag)

theorem resolveTag_ids_nodup {db : DB} (tag : String)
    (h : (db.tags.map (fun t => t.id)).Nodup) :
    ((resolveTag db tag).2.tags.map (fun t => t.id)).Nodup := by
  unfold resolveTag
  cases hf : db.tags.find? (fun t => t.name == (strLower tag)) with
  | some t => simpa [hf] using h
  | none =>
    simp only [hf, List.map_append, List.map_cons, List.map_nil]
    rw [List.nodup_append]
    refine ⟨h, List.nodup_singleton _, ?_⟩
    intro x hx hy
    rcases List.mem_singleton.mp hy with rfl
    exact maxId_add_one_not_mem hx

theorem resolveTag_names_nodup {db : DB} (tag : String)
    (h : (db.tags.map (fun t => t.name)).Nodup) :
    ((resolveTag db tag).2.tags.map (fun t => t.name)).Nodup := by
  unfold resolveTag
  cases hf : db.tags.find? (fun t => t.name == (strLower tag)) with
  | some t => simpa [hf] using h
  | none =>
    simp only [hf, List.map_append, List.map_cons, List.map_nil]
    rw [List.nodup_append]
    refine ⟨h, List.nodup_singleton _, ?_⟩
    intro x hx hy
    rcases List.mem_singleton.mp hy with rfl
    rcases List.mem_map.mp hx with ⟨t, ht, hname⟩
    have := List.find?_eq_none.mp hf t ht
    simp [hname] at this

theorem resolveTag_find_stable {db : DB} (tag : String) {p : TagRow → Bool} {t : TagRow}
    (h : db.tags.find? p = some t) :
    (resolveTag db tag).2.tags.find? p = some t := by
  rcases resolveTag_tags_append db tag with ⟨ts, hts⟩
  rw [hts]
  exact find?_append_some h

theorem resolveTag_tags_mem {db : DB} (tag : String) {t : TagRow} (h : t ∈ db.tags) :
    t ∈ (resolveTag db tag).2.tags := by
  rcases resolveTag_tags_append db tag with ⟨ts, hts⟩
  rw [hts]
  exact List.mem_append_left _ h

/-! ### `linkStep` and `insertTagLinks` lemmas -/

theorem linkStep_ok {cid : Int} {db : DB} {tag : String} {db2 : DB} :
    linkStep cid db tag = .ok db2 ↔
      ((resolveTag db tag).2.card_tags.any
          (fun ct => ct.card_id == cid && ct.tag_id == (resolveTag db tag).1) = false ∧
        db2 = { (resolveTag db tag).2 with
                card_tags := (resolveTag db tag).2.card_tags ++
                  [{ card_id := cid, tag_id := (resolveTag db tag).1 }] }) := by
  unfold linkStep
  by_cases h : (resolveTag db tag).2.card_tags.any
      (fun ct => ct.card_id == cid && ct.tag_id == (resolveTag db tag).1) = true
  · simp [h]
  · simp only [Bool.not_eq_true] at h
    simp [h, eq_comm]

theorem linkStep_error {cid : Int} {db : DB} {tag : String} {e : DbErr} :
    linkStep cid db tag = .error e → e = .constraint := by
  unfold linkStep
  by_cases h : (resolveTag db tag).2.card_tags.any
      (fun ct => ct.card_id == cid && ct.tag_id == (resolveTag db tag).1) = true
  · simp [h]
    intro he
    exact he.symm
  · simp only [Bool.not_eq_true] at h
    simp [h]

theorem insertTagLinks_ok_shape :
    ∀ (names : List String) (cid : Int) (db db' : DB),
      insertTagLinks cid names db = .ok db' →
      db'.answers = db.answers ∧ db'.cards = db.cards ∧
      (∃ ts, db'.tags = db.tags ++ ts) ∧
      (∃ ls, db'.card_tags = db.card_tags ++ ls ∧ ∀ l ∈ ls, l.card_id = cid) := by
  intro names
  induction names with
  | nil =>
    intro cid db db' h
    simp only [insertTagLinks] at h
    cases h
    exact ⟨rfl, rfl, ⟨[], by simp⟩, ⟨[], by simp, by simp⟩⟩
  | cons tag rest ih =>
    intro cid db db' h
    simp only [insertTagLinks] at h
    cases hs : linkStep cid db tag with
    | error e => rw [hs] at h; cases h
    | ok db2 =>
      rw [hs] at h
      rcases linkStep_ok.mp hs with ⟨-, rfl⟩
      rcases ih cid _ db' h with ⟨ha, hc, ⟨ts, hts⟩, ⟨ls, hls, hcid⟩⟩
      refine ⟨ha.trans (resolveTag_answers db tag),
              hc.trans (resolveTag_cards db tag), ?_, ?_⟩
      · rcases resolveTag_tags_append db tag with ⟨ts0, hts0⟩
        exact ⟨ts0 ++ ts, by
          rw [hts]
          show (resolveTag db tag).2.tags ++ ts = db.tags ++ (ts0 ++ ts)
          rw [hts0, List.append_assoc]⟩
      · refine ⟨{ card_id := cid, tag_id := (resolveTag db tag).1 } :: ls, ?_, ?_⟩
        · rw [hls]
          show ((resolveTag db tag).2.card_tags ++ _) ++ ls = _
          rw [resolveTag_card_tags db tag, List.append_assoc]
          rfl
        · intro l hl
          rcases List.mem_cons.mp hl with rfl | hl'
          · rfl
          · exact hcid l hl'

theorem insertTagLinks_error_constraint :
    ∀ (names : List String) (cid : Int) (db : DB) (e : DbErr),
      insertTagLinks cid names db = .error e → e = .constraint := by
  intro names
  induction names with
  | nil => intro cid db e h; simp only [insertTagLinks] at h; cases h
  | cons tag rest ih =>
    intro cid db e h
    simp only [insertTagLinks] at h
    cases hs : linkStep cid db tag with
    | error e' =>
      rw [hs] at h
      cases h
      exact linkStep_error hs
    | ok db2 =>
      rw [hs] at h
      exact ih cid db2 e h

theorem insertTagLinks_ok_tags :
    ∀ (names : List String) (cid : Int) (db db' : DB),
      (db.tags.map (fun t => t.id)).Nodup →
      insertTagLinks cid names db = .ok db' →
      ((db'.tags.map (fun t => t.id)).Nodup) ∧
      ∃ ls, db'.card_tags = db.card_tags ++ ls ∧
        List.Forall₂ (fun (name : String) (l : CardTagRow) =>
          l.card_id = cid ∧
          db'.tags.find? (fun t => t.id == l.tag_id)
            = some { id := l.tag_id, name := (strLower name) }) names ls := by
  intro names
  induction names with
  | nil =>
    intro cid db db' hnd h
    simp only [insertTagLinks] at h
    cases h
    exact ⟨hnd, ⟨[], by simp, List.Forall₂.nil⟩⟩
  | cons tag rest ih =>
    intro cid db db' hnd h
    simp only [insertTagLinks] at h
    cases hs : linkStep cid db tag with
    | error e => rw [hs] at h; cases h
    | ok db2 =>
      rw [hs] at h
      rcases linkStep_ok.mp hs with ⟨-, hdb2⟩
      have h2tags : db2.tags = (resolveTag db tag).2.tags := by rw [hdb2]
      have h2ct : db2.card_tags = (resolveTag db tag).2.card_tags ++
          [{ card_id := cid, tag_id := (resolveTag db tag).1 }] := by rw [hdb2]
      have hnd2 : (db2.tags.map (fun t => t.id)).Nodup := by
        rw [h2tags]
        exact resolveTag_ids_nodup tag hnd
      rcases ih cid db2 db' hnd2 h with ⟨hnd', ⟨ls, hls, hfa⟩⟩
      refine ⟨hnd', ⟨{ card_id := cid, tag_id := (resolveTag db tag).1 } :: ls, ?_, ?_⟩⟩
      · rw [hls, h2ct, resolveTag_card_tags db tag, List.append_assoc]
        rfl
      · refine List.Forall₂.cons ⟨rfl, ?_⟩ hfa
        have hmem : ({ id := (resolveTag db tag).1, name := (strLower tag) } : TagRow)
            ∈ (resolveTag db tag).2.tags := resolveTag_mem db tag
        have hfind : (resolveTag db tag).2.tags.find?
            (fun t => t.id == (resolveTag db tag).1)
            = some { id := (resolveTag db tag).1, name := (strLower tag) } := by
          have hnd2' : ((resolveTag db tag).2.tags.map (fun t => t.id)).Nodup :=
            resolveTag_ids_nodup tag hnd
          have := find?_key_eq (fun t : TagRow => t.id) hnd2' hmem
          simpa using this
        rcases (insertTagLinks_ok_shape rest cid db2 db' h).2.2.1 with ⟨ts, hts⟩
        rw [hts, h2tags]
        exact find?_append_some hfind

theorem eq_of_mem_key {α κ : Type} [DecidableEq κ] (key : α → κ) {l : List α} {a b : α}
    (hnd : (l.map key).Nodup) (ha : a ∈ l) (hb : b ∈ l) (hk : key a = key b) :
    a = b := by
  have h1 := find?_key_eq key hnd ha
  have h2 := find?_key_eq key hnd hb
  rw [hk] at h1
  rw [h1] at h2
  exact Option.some.inj h2

/-- If some name in the list already resolves to a tag that is linked to the
card, the tag loop raises (the composite key of `card_tags` is violated when
that name is reached, if not earlier). -/
theorem insertTagLinks_fails_of_linked :
    ∀ (names : List String) (cid : Int) (db : DB) (m : String),
      m ∈ names →
      (∃ t, db.tags.find? (fun x => x.name == (strLower m)) = some t ∧
        ∃ ct ∈ db.card_tags, ct.card_id = cid ∧ ct.tag_id = t.id) →
      ∀ db', insertTagLinks cid names db ≠ .ok db' := by
  intro names
  induction names with
  | nil => intro cid db m hm; cases hm
  | cons k rest ih =>
    intro cid db m hm hex db' h
    rcases hex with ⟨t, hfind, ct, hct, hcc, htt⟩
    simp only [insertTagLinks] at h
    cases hs : linkStep cid db k with
    | error e => rw [hs] at h; cases h
    | ok db2 =>
      rw [hs] at h
      rcases linkStep_ok.mp hs with ⟨hany, hdb2⟩
      rcases List.mem_cons.mp hm with rfl | hm'
      · have hres : resolveTag db m = (t.id, db) := by
          unfold resolveTag
          rw [hfind]
        have htrue : (resolveTag db m).2.card_tags.any
            (fun x => x.card_id == cid && x.tag_id == (resolveTag db m).1) = true := by
          rw [hres]
          exact List.any_eq_true.mpr ⟨ct, hct, by simp [hcc, htt]⟩
        rw [htrue] at hany
        cases hany
      · apply ih cid db2 m hm' ?_ db' h
        refine ⟨t, ?_, ct, ?_, hcc, htt⟩
        · have h2 : db2.tags = (resolveTag db k).2.tags := by rw [hdb2]
          rw [h2]
          exact resolveTag_find_stable k hfind
        · have h2 : db2.card_tags = (resolveTag db k).2.card_tags ++
              [{ card_id := cid, tag_id := (resolveTag db k).1 }] := by rw [hdb2]
          rw [h2, resolveTag_card_tags]
          exact List.mem_append_left _ hct

/-- The tag loop succeeds only when the lowercased names are pairwise
distinct: a repeated normalized name re-resolves to the same tag id and the
second link insert violates the composite primary key. -/
theorem insertTagLinks_ok_lower_nodup :
    ∀ (names : List String) (cid : Int) (db db' : DB),
      insertTagLinks cid names db = .ok db' →
      (names.map strLower).Nodup := by
  intro names
  induction names with
  | nil => intro cid db db' _; simp
  | cons k rest ih =>
    intro cid db db' h
    simp only [insertTagLinks] at h
    cases hs : linkStep cid db k with
    | error e => rw [hs] at h; cases h
    | ok db2 =>
      rw [hs] at h
      rcases linkStep_ok.mp hs with ⟨-, hdb2⟩
      simp only [List.map_cons, List.nodup_cons]
      refine ⟨?_, ih cid db2 db' h⟩
      intro hmem
      rcases List.mem_map.mp hmem with ⟨m, hm, hml⟩
      apply insertTagLinks_fails_of_linked rest cid db2 m hm ?_ db' h
      refine ⟨{ id := (resolveTag db k).1, name := (strLower k) }, ?_, ?_⟩
      · have h2 : db2.tags = (resolveTag db k).2.tags := by rw [hdb2]
        rw [h2, hml]
        exact resolveTag_find db k
      · refine ⟨{ card_id := cid, tag_id := (resolveTag db k).1 }, ?_, rfl, rfl⟩
        have h2 : db2.card_tags = (resolveTag db k).2.card_tags ++
            [{ card_id := cid, tag_id := (resolveTag db k).1 }] := by rw [hdb2]
        rw [h2]
        exact List.mem_append_right _ (List.mem_singleton_self _)

/-- The tag loop succeeds when the lowercased names are distinct and every
link the card already has points at a tag whose name is not among them. -/
theorem insertTagLinks_ok_exists :
    ∀ (names : List String) (cid : Int) (db : DB),
      (db.tags.map (fun t => t.id)).Nodup →
      (names.map strLower).Nodup →
      (∀ ct ∈ db.card_tags, ct.card_id = cid →
        ∃ t ∈ db.tags, t.id = ct.tag_id ∧ t.name ∉ names.map strLower) →
      ∃ db', insertTagLinks cid names db = .ok db' := by
  intro names
  induction names with
  | nil => intro cid db _ _ _; exact ⟨db, rfl⟩
  | cons k rest ih =>
    intro cid db hnd hnodup hinv
    have hany : (resolveTag db k).2.card_tags.any
        (fun ct => ct.card_id == cid && ct.tag_id == (resolveTag db k).1) = false := by
      rw [resolveTag_card_tags]
      apply List.any_eq_false.mpr
      intro ct hct
      simp only [Bool.and_eq_true, beq_iff_eq, not_and]
      intro hcc htt
      rcases hinv ct hct hcc with ⟨t, ht, hid, hname⟩
      have htmem : t ∈ (resolveTag db k).2.tags := resolveTag_tags_mem k ht
      have hnd' := resolveTag_ids_nodup k hnd
      have ht' : t = { id := (resolveTag db k).1, name := (strLower k) } := by
        apply eq_of_mem_key (fun x : TagRow => x.id) hnd' htmem (resolveTag_mem db k)
        simp [hid, htt]
      rw [ht'] at hname
      exact hname (by simp)
    have hstep : linkStep cid db k = .ok { (resolveTag db k).2 with
        card_tags := (resolveTag db k).2.card_tags ++
          [{ card_id := cid, tag_id := (resolveTag db k).1 }] } :=
      linkStep_ok.mpr ⟨hany, rfl⟩
    have hnodup' : (rest.map strLower).Nodup :=
      (List.nodup_cons.mp (by simpa using hnodup)).2
    have hnotmem : (strLower k) ∉ rest.map strLower :=
      (List.nodup_cons.mp (by simpa using hnodup)).1
    have hnd2 : (({ (resolveTag db k).2 with
        card_tags := (resolveTag db k).2.card_tags ++
          [{ card_id := cid, tag_id := (resolveTag db k).1 }] } : DB).tags.map
        (fun t => t.id)).Nodup := resolveTag_ids_nodup k hnd
    have hinv2 : ∀ ct ∈ ({ (resolveTag db k).2 with
        card_tags := (resolveTag db k).2.card_tags ++
          [{ card_id := cid, tag_id := (resolveTag db k).1 }] } : DB).card_tags,
        ct.card_id = cid →
        ∃ t ∈ ({ (resolveTag db k).2 with
          card_tags := (resolveTag db k).2.card_tags ++
            [{ card_id := cid, tag_id := (resolveTag db k).1 }] } : DB).tags,
          t.id = ct.tag_id ∧ t.name ∉ rest.map strLower := by
      intro ct hct hcc
      rcases List.mem_append.mp (by
          rw [resolveTag_card_tags] at hct
          exact hct) with hold | hnew
      · rcases hinv ct hold hcc with ⟨t, ht, hid, hname⟩
        exact ⟨t, resolveTag_tags_mem k ht, hid,
          fun hmem => hname (List.mem_cons_of_mem _ hmem)⟩
      · rcases List.mem_singleton.mp hnew with rfl
        exact ⟨{ id := (resolveTag db k).1, name := (strLower k) },
          resolveTag_mem db k, rfl, hnotmem⟩
    rcases ih cid _ hnd2 hnodup' hinv2 with ⟨db', hrec⟩
    refine ⟨db', ?_⟩
    simp only [insertTagLinks]
    rw [hstep]
    exact hrec

/-! ### `load_cards` lemmas -/

theorem loadRow_congr (db db' : DB) (r : CardRow)
    (ha : db'.answers.find? (fun a => a.id == r.answers_id)
        = db.answers.find? (fun a => a.id == r.answers_id))
    (ht : groupTagNames db' r.id = groupTagNames db r.id) :
    loadRow db' r = loadRow db r := by
  unfold loadRow
  rw [ha, ht]

theorem loadRows_congr {db db' : DB} {rs : List CardRow}
    (h : ∀ r ∈ rs, loadRow db' r = loadRow db r) :
    loadRows db' rs = loadRows db rs := by
  induction rs with
  | nil => rfl
  | cons r rs ih =>
    simp only [loadRows]
    rw [h r (List.mem_cons_self _ _), ih (fun x hx => h x (List.mem_cons_of_mem _ hx))]

theorem loadRows_append_ok {db : DB} {l1 l2 : List CardRow} {a b : List Card}
    (h1 : loadRows db l1 = .ok a) (h2 : loadRows db l2 = .ok b) :
    loadRows db (l1 ++ l2) = .ok (a ++ b) := by
  induction l1 generalizing a with
  | nil =>
    simp only [loadRows] at h1
    cases h1
    simpa using h2
  | cons r rs ih =>
    simp only [loadRows] at h1 ⊢
    cases hr : loadRow db r with
    | error e => rw [hr] at h1; cases h1
    | ok oc =>
      rw [hr] at h1
      cases oc with
      | none => exact ih h1
      | some c =>
        cases hrs : loadRows db rs with
        | error e => rw [hrs] at h1; cases h1
        | ok cs =>
          rw [hrs] at h1
          cases h1
          simp [ih hrs]

theorem loadRows_ok_mem {db : DB} {rs : List CardRow} {cs : List Card}
    (h : loadRows db rs = .ok cs) : ∀ e ∈ cs, ∃ r ∈ rs, loadRow db r = .ok (some e) := by
  induction rs generalizing cs with
  | nil =>
    simp only [loadRows] at h
    cases h
    intro e he
    cases he
  | cons r rs ih =>
    simp only [loadRows] at h
    cases hr : loadRow db r with
    | error e => rw [hr] at h; cases h
    | ok oc =>
      rw [hr] at h
      cases oc with
      | none =>
        intro e he
        rcases ih h e he with ⟨r', hr', he'⟩
        exact ⟨r', List.mem_cons_of_mem _ hr', he'⟩
      | some c =>
        cases hrs : loadRows db rs with
        | error e => rw [hrs] at h; cases h
        | ok cs' =>
          rw [hrs] at h
          cases h
          intro e he
          rcases List.mem_cons.mp he with rfl | he'
          · exact ⟨r, List.mem_cons_self _ _, hr⟩
          · rcases ih hrs e he' with ⟨r', hr', hre⟩
            exact ⟨r', List.mem_cons_of_mem _ hr', hre⟩

theorem loadRows_ok_forall₂ {db : DB} {rs : List CardRow} {cs : List Card}
    (h : loadRows db rs = .ok cs)
    (hall : ∀ r ∈ rs, ∃ c, loadRow db r = .ok (some c)) :
    List.Forall₂ (fun r e => loadRow db r = .ok (some e)) rs cs := by
  induction rs generalizing cs with
  | nil =>
    simp only [loadRows] at h
    cases h
    exact List.Forall₂.nil
  | cons r rs ih =>
    simp only [loadRows] at h
    rcases hall r (List.mem_cons_self _ _) with ⟨c, hc⟩
    rw [hc] at h
    cases hrs : loadRows db rs with
    | error e => rw [hrs] at h; cases h
    | ok cs' =>
      rw [hrs] at h
      cases h
      exact List.Forall₂.cons hc (ih hrs (fun x hx => hall x (List.mem_cons_of_mem _ hx)))

theorem loadRow_ok_some {db : DB} {r : CardRow} {c : Card}
    (h : loadRow db r = .ok (some c)) :
    ∃ a, db.answers.find? (fun x => x.id == r.answers_id) = some a ∧
      ∃ imgs, decodeImages r.images = .ok imgs ∧
      c = { id := r.id, front := r.front, back := r.back,
            last_asked := r.last_asked, next_review := r.next_review,
            retired := r.retired != 0,
            tags := pyTagsField (groupConcat (groupTagNames db r.id)),
            images := imgs,
            answers := { correct := a.correct, part := a.part, incorrect := a.incorrect },
            streak := r.streak } := by
  unfold loadRow at h
  cases hf : db.answers.find? (fun x => x.id == r.answers_id) with
  | none => rw [hf] at h; cases h
  | some a =>
    rw [hf] at h
    cases hi : decodeImages r.images with
    | error e => rw [hi] at h; cases h
    | ok imgs =>
      rw [hi] at h
      exact ⟨a, rfl, imgs, rfl, (Option.some.inj (Except.ok.inj h)).symm⟩

theorem loadRow_ok_intro {db : DB} {r : CardRow} {a : AnswerRow} {imgs : List String}
    (hf : db.answers.find? (fun x => x.id == r.answers_id) = some a)
    (hi : decodeImages r.images = .ok imgs) :
    loadRow db r = .ok (some
      { id := r.id, front := r.front, back := r.back,
        last_asked := r.last_asked, next_review := r.next_review,
        retired := r.retired != 0,
        tags := pyTagsField (groupConcat (groupTagNames db r.id)),
        images := imgs,
        answers := { correct := a.correct, part := a.part, incorrect := a.incorrect },
        streak := r.streak }) := by
  unfold loadRow
  rw [hf, hi]

theorem groupTagNames_congr (db db' : DB) (x : Int)
    (hlinks : db'.card_tags.filter (fun ct => ct.card_id == x)
        = db.card_tags.filter (fun ct => ct.card_id == x))
    (htags : ∃ ts, db'.tags = db.tags ++ ts)
    (hvalid : ∀ ct ∈ db.card_tags, ct.card_id = x →
      (db.tags.find? (fun t => t.id == ct.tag_id)).isSome) :
    groupTagNames db' x = groupTagNames db x := by
  unfold groupTagNames
  rw [hlinks]
  apply List.filterMap_congr
  intro ct hct
  have hmem : ct ∈ db.card_tags := (List.mem_filter.mp hct).1
  have hx : ct.card_id = x := by
    have := (List.mem_filter.mp hct).2
    simpa using this
  rcases Option.isSome_iff_exists.mp (hvalid ct hmem hx) with ⟨t, ht⟩
  rcases htags with ⟨ts, hts⟩
  rw [ht, hts, find?_append_some ht]

theorem filterMap_linked_names {db' : DB} {cid : Int} {names : List String}
    {ls : List CardTagRow}
    (h : List.Forall₂ (fun (name : String) (l : CardTagRow) => l.card_id = cid ∧
        db'.tags.find? (fun t => t.id == l.tag_id)
          = some { id := l.tag_id, name := (strLower name) }) names ls) :
    ls.filterMap (fun ct => (db'.tags.find? (fun t => t.id == ct.tag_id)).map
        (fun t => t.name)) = names.map strLower := by
  induction h with
  | nil => rfl
  | cons h1 h2 ih => simp [List.filterMap_cons, h1.2, ih]

theorem links_filter_self {cid : Int} {ls : List CardTagRow}
    (h : ∀ l ∈ ls, l.card_id = cid) :
    ls.filter (fun ct => ct.card_id == cid) = ls :=
  List.filter_eq_self.mpr fun a ha => by simp [h a ha]

theorem links_filter_ne {x : Int} {ls : List CardTagRow}
    (h : ∀ l ∈ ls, l.card_id ≠ x) :
    ls.filter (fun ct => ct.card_id == x) = [] :=
  List.filter_eq_nil_iff.mpr fun a ha => by simp [h a ha]

/-! ### `update_cards` lemmas -/

theorem updateCardRow_id (c : CardUpdate) (r : CardRow) :
    (updateCardRow c r).id = r.id := by
  unfold updateCardRow
  split <;> rfl

theorem updateCardRow_frame (c : CardUpdate) (r : CardRow) :
    (updateCardRow c r).last_asked = r.last_asked ∧
    (updateCardRow c r).next_review = r.next_review ∧
    (updateCardRow c r).images = r.images ∧
    (updateCardRow c r).answers_id = r.answers_id := by
  unfold updateCardRow
  split <;> exact ⟨rfl, rfl, rfl, rfl⟩

theorem updateCardRow_of_ne {c : CardUpdate} {r : CardRow} (h : r.id ≠ c.id) :
    updateCardRow c r = r := by
  unfold updateCardRow
  rw [if_neg (by simp [h])]

theorem updateCardRow_of_eq {c : CardUpdate} {r : CardRow} (h : r.id = c.id) :
    updateCardRow c r =
      { r with front := c.front, back := c.back,
               retired := if c.retired then 1 else 0, streak := c.streak } := by
  unfold updateCardRow
  rw [if_pos (by simp [h])]

theorem updateAnswerRow_id (c : CardUpdate) (aid : Int) (a : AnswerRow) :
    (updateAnswerRow c aid a).id = a.id := by
  unfold updateAnswerRow
  split <;> rfl

theorem updateAnswerRow_of_ne {c : CardUpdate} {aid : Int} {a : AnswerRow}
    (h : a.id ≠ aid) : updateAnswerRow c aid a = a := by
  unfold updateAnswerRow
  rw [if_neg (by simp [h])]

theorem updateAnswerRow_of_eq {c : CardUpdate} {aid : Int} {a : AnswerRow}
    (h : a.id = aid) :
    updateAnswerRow c aid a =
      { a with correct := c.answers.correct, part := c.answers.part,
               incorrect := c.answers.incorrect } := by
  unfold updateAnswerRow
  rw [if_pos (by simp [h])]

theorem find?_map_updateCardRow (c : CardUpdate) (l : List CardRow) (x : Int) :
    (l.map (updateCardRow c)).find? (fun r => r.id == x)
      = (l.find? (fun r => r.id == x)).map (updateCardRow c) := by
  induction l with
  | nil => rfl
  | cons r l ih =>
    by_cases h : r.id = x
    · rw [List.map_cons,
        List.find?_cons_of_pos _ (by simp [updateCardRow_id, h]),
        List.find?_cons_of_pos _ (by simp [h])]
      rfl
    · rw [List.map_cons,
        List.find?_cons_of_neg _ (by simp [updateCardRow_id, h]),
        List.find?_cons_of_neg _ (by simp [h]), ih]

theorem applyUpdate_ok_spec {db : DB} {c : CardUpdate} {db' : DB}
    (hnd : (db.tags.map (fun t => t.id)).Nodup)
    (h : applyUpdate db c = .ok db') :
    ∃ r0, db.cards.find? (fun r => r.id == c.id) = some r0 ∧
      db'.cards = db.cards.map (updateCardRow c) ∧
      db'.answers = db.answers.map (updateAnswerRow c r0.answers_id) ∧
      (∃ ts, db'.tags = db.tags ++ ts) ∧
      ((db'.tags.map (fun t => t.id)).Nodup) ∧
      ∃ ls, db'.card_tags
          = db.card_tags.filter (fun ct => !(ct.card_id == c.id)) ++ ls ∧
        List.Forall₂ (fun (name : String) (l : CardTagRow) => l.card_id = c.id ∧
          db'.tags.find? (fun t => t.id == l.tag_id)
            = some { id := l.tag_id, name := (strLower name) }) c.tags ls := by
  unfold applyUpdate at h
  cases hf : db.cards.find? (fun r => r.id == c.id) with
  | none => rw [hf] at h; cases h
  | some r0 =>
    rw [hf, find?_map_updateCardRow, hf] at h
    simp only [Option.map_some'] at h
    have haid : (updateCardRow c r0).answers_id = r0.answers_id :=
      (updateCardRow_frame c r0).2.2.2
    rw [haid] at h
    refine ⟨r0, rfl, ?_⟩
    have hshape := insertTagLinks_ok_shape c.tags c.id _ db' h
    have htags := insertTagLinks_ok_tags c.tags c.id _ db' (by simpa using hnd) h
    rcases hshape with ⟨ha, hc, ⟨ts, hts⟩, -⟩
    rcases htags with ⟨hnd', ⟨ls, hls, hfa⟩⟩
    exact ⟨hc, ha, ⟨ts, hts⟩, hnd', ⟨ls, hls, hfa⟩⟩

theorem applyUpdate_error_of_missing {db : DB} {c : CardUpdate}
    (h : ∀ r ∈ db.cards, r.id ≠ c.id) :
    applyUpdate db c = .error (.notFound c.id) := by
  unfold applyUpdate
  rw [List.find?_eq_none.mpr (fun r hr => by simp [h r hr])]

theorem applyUpdate_ok_exists {db : DB} {c : CardUpdate}
    (hnd : (db.tags.map (fun t => t.id)).Nodup)
    (hex : ∃ r ∈ db.cards, r.id = c.id)
    (htags : (c.tags.map strLower).Nodup) :
    ∃ db', applyUpdate db c = .ok db' := by
  rcases hex with ⟨r, hr, hrid⟩
  have hf : (db.cards.find? (fun r => r.id == c.id)).isSome :=
    List.find?_isSome.mpr ⟨r, hr, by simp [hrid]⟩
  rcases Option.isSome_iff_exists.mp hf with ⟨r0, hr0⟩
  unfold applyUpdate
  rw [hr0, find?_map_updateCardRow, hr0]
  simp only [Option.map_some]
  apply insertTagLinks_ok_exists c.tags c.id _ (by simpa using hnd) htags
  intro ct hct hcc
  exact absurd hcc (by
    have := List.mem_filter.mp hct
    simpa using this.2)

theorem applyUpdate_error_constraint {db : DB} {c : CardUpdate} {e : DbErr}
    (hex : ∃ r ∈ db.cards, r.id = c.id)
    (h : applyUpdate db c = .error e) : e = .constraint := by
  rcases hex with ⟨r, hr, hrid⟩
  have hf : (db.cards.find? (fun r => r.id == c.id)).isSome :=
    List.find?_isSome.mpr ⟨r, hr, by simp [hrid]⟩
  rcases Option.isSome_iff_exists.mp hf with ⟨r0, hr0⟩
  unfold applyUpdate at h
  rw [hr0, find?_map_updateCardRow, hr0] at h
  simp only [Option.map_some'] at h
  exact insertTagLinks_error_constraint c.tags c.id _ e h

theorem applyUpdate_error_of_dup_tags {db : DB} {c : CardUpdate}
    (hex : ∃ r ∈ db.cards, r.id = c.id)
    (hdup : ¬ (c.tags.map strLower).Nodup) :
    applyUpdate db c = .error .constraint := by
  cases h : applyUpdate db c with
  | error e => rw [applyUpdate_error_constraint hex h]
  | ok db' =>
    rcases hex with ⟨r, hr, hrid⟩
    have hf : (db.cards.find? (fun r => r.id == c.id)).isSome :=
      List.find?_isSome.mpr ⟨r, hr, by simp [hrid]⟩
    rcases Option.isSome_iff_exists.mp hf with ⟨r0, hr0⟩
    unfold applyUpdate at h
    rw [hr0, find?_map_updateCardRow, hr0] at h
    simp only [Option.map_some'] at h
    exact absurd (insertTagLinks_ok_lower_nodup c.tags c.id _ db' h) hdup

/-- Like `applyUpdate_ok_spec` but with no hypotheses: only the coarse shape
of the four tables after one loop iteration. -/
theorem applyUpdate_ok_shape {db : DB} {c : CardUpdate} {db' : DB}
    (h : applyUpdate db c = .ok db') :
    ∃ r0, db.cards.find? (fun r => r.id == c.id) = some r0 ∧
      db'.cards = db.cards.map (updateCardRow c) ∧
      db'.answers = db.answers.map (updateAnswerRow c r0.answers_id) ∧
      (∃ ts, db'.tags = db.tags ++ ts) ∧
      ∃ ls, db'.card_tags
          = db.card_tags.filter (fun ct => !(ct.card_id == c.id)) ++ ls ∧
        ∀ l ∈ ls, l.card_id = c.id := by
  unfold applyUpdate at h
  cases hf : db.cards.find? (fun r => r.id == c.id) with
  | none => rw [hf] at h; cases h
  | some r0 =>
    rw [hf, find?_map_updateCardRow, hf] at h
    simp only [Option.map_some'] at h
    have haid : (updateCardRow c r0).answers_id = r0.answers_id :=
      (updateCardRow_frame c r0).2.2.2
    rw [haid] at h
    rcases insertTagLinks_ok_shape c.tags c.id _ db' h with
      ⟨ha, hc, ⟨ts, hts⟩, ⟨ls, hls, hcid⟩⟩
    exact ⟨r0, rfl, hc, ha, ⟨ts, hts⟩, ⟨ls, hls, hcid⟩⟩

theorem forall₂_exists_left {α β : Type} {R : α → β → Prop} :
    ∀ {as : List α} {bs : List β}, List.Forall₂ R as bs →
      ∀ b ∈ bs, ∃ a ∈ as, R a b := by
  intro as bs h
  induction h with
  | nil => intro b hb; cases hb
  | cons h1 h2 ih =>
    intro b hb
    rcases List.mem_cons.mp hb with rfl | hb'
    · exact ⟨_, List.mem_cons_self _ _, h1⟩
    · rcases ih b hb' with ⟨a, ha, hr⟩
      exact ⟨a, List.mem_cons_of_mem _ ha, hr⟩

/-- Successfully inserted links are pairwise distinct rows: their normalized
names are distinct and determine the tag ids. -/
theorem linked_rows_nodup {db' : DB} {cid : Int} {names : List String}
    {ls : List CardTagRow}
    (hfa : List.Forall₂ (fun (name : String) (l : CardTagRow) => l.card_id = cid ∧
        db'.tags.find? (fun t => t.id == l.tag_id)
          = some { id := l.tag_id, name := (strLower name) }) names ls)
    (hnames : (names.map strLower).Nodup) : ls.Nodup := by
  induction hfa with
  | nil => exact List.nodup_nil
  | @cons name l names' ls' h1 h2 ih =>
    rw [List.map_cons, List.nodup_cons] at hnames
    rw [List.nodup_cons]
    refine ⟨?_, ih hnames.2⟩
    intro hmem
    rcases forall₂_exists_left h2 l hmem with ⟨name', hname', hr⟩
    have := h1.2.symm.trans hr.2
    have hlow : (strLower name) = (strLower name') := by
      have := congrArg (fun o => (Option.map (fun t : TagRow => t.name) o)) this
      simpa using this
    exact hnames.1 (hlow ▸ List.mem_map_of_mem strLower hname')

theorem insertTagLinks_names_nodup :
    ∀ (names : List String) (cid : Int) (db db' : DB),
      (db.tags.map (fun t => t.name)).Nodup →
      insertTagLinks cid names db = .ok db' →
      (db'.tags.map (fun t => t.name)).Nodup := by
  intro names
  induction names with
  | nil =>
    intro cid db db' hnd h
    simp only [insertTagLinks] at h
    cases h
    exact hnd
  | cons tag rest ih =>
    intro cid db db' hnd h
    simp only [insertTagLinks] at h
    cases hs : linkStep cid db tag with
    | error e => rw [hs] at h; cases h
    | ok db2 =>
      rw [hs] at h
      rcases linkStep_ok.mp hs with ⟨-, hdb2⟩
      have h2 : db2.tags = (resolveTag db tag).2.tags := by rw [hdb2]
      apply ih cid db2 db' ?_ h
      rw [h2]
      exact resolveTag_names_nodup tag hnd

theorem filter_not_eq_filter {base : List CardTagRow} {cid x : Int} (hx : x ≠ cid) :
    (base.filter (fun ct => !(ct.card_id == cid))).filter (fun ct => ct.card_id == x)
      = base.filter (fun ct => ct.card_id == x) := by
  rw [List.filter_filter]
  apply List.filter_congr
  intro a _
  by_cases h : a.card_id = x
  · simp [h, hx]
  · simp [h]

theorem filter_not_eq_nil {base : List CardTagRow} {cid : Int} :
    (base.filter (fun ct => !(ct.card_id == cid))).filter
      (fun ct => ct.card_id == cid) = [] := by
  rw [List.filter_filter]
  apply List.filter_eq_nil_iff.mpr
  intro a _
  simp

/-- One successful loop iteration preserves the schema invariants. -/
theorem applyUpdate_WF {db : DB} {c : CardUpdate} {db' : DB}
    (hwf : WF db) (h : applyUpdate db c = .ok db') : WF db' := by
  obtain ⟨w1, w2, w3, w4, w5, w6, w7, w8, w9⟩ := hwf
  rcases applyUpdate_ok_spec w3 h with
    ⟨r0, hr0, hcards, hanswers, ⟨ts, hts⟩, hnd', ⟨ls, hls, hfa⟩⟩
  have hcardids : (db'.cards.map (fun r => r.id)) = db.cards.map (fun r => r.id) := by
    rw [hcards, List.map_map]
    exact List.map_congr_left (fun r _ => updateCardRow_id c r)
  have hansids : (db'.answers.map (fun a => a.id)) = db.answers.map (fun a => a.id) := by
    rw [hanswers, List.map_map]
    exact List.map_congr_left (fun a _ => updateAnswerRow_id c r0.answers_id a)
  have haids : (db'.cards.map (fun r => r.answers_id))
      = db.cards.map (fun r => r.answers_id) := by
    rw [hcards, List.map_map]
    exact List.map_congr_left (fun r _ => (updateCardRow_frame c r).2.2.2)
  have hlower : (c.tags.map strLower).Nodup := by
    rcases applyUpdate_ok_shape h with ⟨r0', hr0', -, -, -, -⟩
    unfold applyUpdate at h
    rw [hr0', find?_map_updateCardRow, hr0'] at h
    simp only [Option.map_some'] at h
    exact insertTagLinks_ok_lower_nodup c.tags c.id _ db' h
  refine ⟨by rw [hcardids]; exact w1,
          by rw [hansids]; exact w2,
          hnd', ?_, ?_, ?_, ?_,
          by rw [haids]; exact w8, ?_⟩
  · -- tag names still distinct
    rcases applyUpdate_ok_shape h with ⟨r0', hr0', -, -, -, -⟩
    unfold applyUpdate at h
    rw [hr0', find?_map_updateCardRow, hr0'] at h
    simp only [Option.map_some'] at h
    exact insertTagLinks_names_nodup c.tags c.id _ db' (by exact w4) h
  · -- links rows still distinct
    rw [hls]
    rw [List.nodup_append]
    refine ⟨w5.filter _, linked_rows_nodup hfa hlower, ?_⟩
    intro a ha hb
    have ha' : a.card_id ≠ c.id := by
      have := (List.mem_filter.mp ha).2
      simpa using this
    rcases forall₂_exists_left hfa a hb with ⟨name, -, hrel⟩
    exact ha' hrel.1
  · -- links reference existing cards
    intro ct hct
    rw [hls] at hct
    rcases List.mem_append.mp hct with hold | hnew
    · rcases w6 ct (List.mem_filter.mp hold).1 with ⟨r, hr, hid⟩
      refine ⟨updateCardRow c r, ?_, ?_⟩
      · rw [hcards]; exact List.mem_map_of_mem _ hr
      · rw [updateCardRow_id, hid]
    · rcases forall₂_exists_left hfa ct hnew with ⟨name, -, hrel⟩
      refine ⟨updateCardRow c r0, ?_, ?_⟩
      · rw [hcards]; exact List.mem_map_of_mem _ (List.mem_of_find?_eq_some hr0)
      · rw [updateCardRow_id, hrel.1]
        have := List.find?_some hr0
        simpa using this
  · -- links reference existing tags
    intro ct hct
    rw [hls] at hct
    rcases List.mem_append.mp hct with hold | hnew
    · rcases w7 ct (List.mem_filter.mp hold).1 with ⟨t, ht, hid⟩
      exact ⟨t, by rw [hts]; exact List.mem_append_left _ ht, hid⟩
    · rcases forall₂_exists_left hfa ct hnew with ⟨name, -, hrel⟩
      exact ⟨_, List.mem_of_find?_eq_some hrel.2, rfl⟩
  · -- every card still owns a stats row
    intro r' hr'
    rw [hcards] at hr'
    rcases List.mem_map.mp hr' with ⟨r, hr, rfl⟩
    rcases w9 r hr with ⟨a, ha, hid⟩
    refine ⟨updateAnswerRow c r0.answers_id a, ?_, ?_⟩
    · rw [hanswers]; exact List.mem_map_of_mem _ ha
    · rw [updateAnswerRow_id, hid, (updateCardRow_frame c r).2.2.2]

theorem preservesCardFrame_trans {a b c : CardRow}
    (h1 : preservesCardFrame a b) (h2 : preservesCardFrame b c) :
    preservesCardFrame a c :=
  ⟨h2.1.trans h1.1, h2.2.1.trans h1.2.1, h2.2.2.1.trans h1.2.2.1,
   h2.2.2.2.1.trans h1.2.2.2.1, h2.2.2.2.2.trans h1.2.2.2.2⟩

theorem forall₂_frame_trans :
    ∀ {l1 l2 l3 : List CardRow},
      List.Forall₂ preservesCardFrame l1 l2 → List.Forall₂ preservesCardFrame l2 l3 →
      List.Forall₂ preservesCardFrame l1 l3 := by
  intro l1 l2 l3 h12
  induction h12 generalizing l3 with
  | nil =>
    intro h23
    cases h23
    exact List.Forall₂.nil
  | cons h1 h2 ih =>
    intro h23
    cases h23 with
    | cons h3 h4 => exact List.Forall₂.cons (preservesCardFrame_trans h1 h3) (ih h4)

theorem forall₂_frame_map (c : CardUpdate) (l : List CardRow) :
    List.Forall₂ preservesCardFrame l (l.map (updateCardRow c)) := by
  rw [List.forall₂_map_right_iff]
  apply List.forall₂_same.mpr
  intro r _
  exact ⟨updateCardRow_id c r, (updateCardRow_frame c r).1,
    (updateCardRow_frame c r).2.1, (updateCardRow_frame c r).2.2.1,
    (updateCardRow_frame c r).2.2.2⟩

/-- After a successful run of the update loop: the invariants still hold, the
fields the loop never writes survive row-for-row, and a card that is not in
the batch keeps its row, its stats row and its joined tag names. -/
theorem updateLoop_ok_frame :
    ∀ (batch : List CardUpdate) (db db' : DB),
      WF db → updateLoop batch db = .ok db' →
      WF db' ∧
      List.Forall₂ preservesCardFrame db.cards db'.cards ∧
      (∀ t ∈ db.tags, t ∈ db'.tags) ∧
      (∀ r ∈ db.cards, (∀ c ∈ batch, c.id ≠ r.id) →
        r ∈ db'.cards ∧
        (∀ a ∈ db.answers, a.id = r.answers_id → a ∈ db'.answers) ∧
        groupTagNames db' r.id = groupTagNames db r.id) := by
  intro batch
  induction batch with
  | nil =>
    intro db db' hwf h
    simp only [updateLoop] at h
    cases h
    refine ⟨hwf, ?_, fun t ht => ht, ?_⟩
    · exact List.forall₂_same.mpr (fun r _ => ⟨rfl, rfl, rfl, rfl, rfl⟩)
    · exact fun r hr _ => ⟨hr, fun a ha _ => ha, rfl⟩
  | cons c cs ih =>
    intro db db' hwf h
    simp only [updateLoop] at h
    cases ha : applyUpdate db c with
    | error e => rw [ha] at h; cases h
    | ok db1 =>
      rw [ha] at h
      have hwf1 : WF db1 := applyUpdate_WF hwf ha
      rcases ih db1 db' hwf1 h with ⟨hwf', hfa', htag', hframe'⟩
      obtain ⟨w1, w2, w3, w4, w5, w6, w7, w8, w9⟩ := hwf
      rcases applyUpdate_ok_shape ha with
        ⟨r0, hr0, hcards, hanswers, ⟨ts, hts⟩, ⟨ls, hls, hcid⟩⟩
      refine ⟨hwf', ?_, ?_, ?_⟩
      · have step : List.Forall₂ preservesCardFrame db.cards db1.cards := by
          rw [hcards]
          exact forall₂_frame_map c db.cards
        exact forall₂_frame_trans step hfa'
      · intro t ht
        exact htag' t (by rw [hts]; exact List.mem_append_left _ ht)
      · intro r hr hnotin
        have hne : c.id ≠ r.id := hnotin c (List.mem_cons_self _ _)
        have hr1 : r ∈ db1.cards := by
          rw [hcards]
          have : updateCardRow c r = r := updateCardRow_of_ne (fun he => hne he.symm)
          exact this ▸ List.mem_map_of_mem _ hr
        have hr0mem : r0 ∈ db.cards := List.mem_of_find?_eq_some hr0
        have hr0id : r0.id = c.id := by
          have := List.find?_some hr0
          simpa using this
        have hr0ne : r0 ≠ r := fun he => hne (by rw [← hr0id, he])
        have haidne : r0.answers_id ≠ r.answers_id := fun he =>
          hr0ne (eq_of_mem_key (fun x : CardRow => x.answers_id) w8 hr0mem hr he)
        have hans1 : ∀ a ∈ db.answers, a.id = r.answers_id → a ∈ db1.answers := by
          intro a ha' hid
          rw [hanswers]
          have : updateAnswerRow c r0.answers_id a = a :=
            updateAnswerRow_of_ne (by rw [hid]; exact fun he => haidne he.symm)
          exact this ▸ List.mem_map_of_mem _ ha'
        have hgt1 : groupTagNames db1 r.id = groupTagNames db r.id := by
          apply groupTagNames_congr
          · rw [hls, List.filter_append,
              filter_not_eq_filter (fun he => hne he.symm),
              @links_filter_ne r.id ls (fun l hl => by rw [hcid l hl]; exact hne),
              List.append_nil]
          · exact ⟨ts, hts⟩
          · intro ct hct _
            rcases w7 ct hct with ⟨t, ht, hid⟩
            exact List.find?_isSome.mpr ⟨t, ht, by simp [hid]⟩
        rcases hframe' r hr1 (fun c' hc' => hnotin c' (List.mem_cons_of_mem _ hc'))
          with ⟨hrmem, hansmem, hgt⟩
        exact ⟨hrmem, fun a ha' hid => hansmem a (hans1 a ha' hid) hid,
          hgt.trans hgt1⟩

/-- When every id in the batch exists, the batch ids are distinct and each
card's normalized tag list is duplicate-free, the update loop succeeds and
writes the supplied field values and stats counts. -/
theorem updateLoop_ok_values :
    ∀ (batch : List CardUpdate) (db : DB),
      WF db →
      (batch.map (fun c => c.id)).Nodup →
      (∀ c ∈ batch, ∃ r ∈ db.cards, r.id = c.id) →
      (∀ c ∈ batch, (c.tags.map strLower).Nodup) →
      ∃ db', updateLoop batch db = .ok db' ∧
        ∀ c ∈ batch, ∃ r ∈ db'.cards,
          r.id = c.id ∧ r.front = c.front ∧ r.back = c.back ∧
          r.retired = (if c.retired then 1 else 0) ∧ r.streak = c.streak ∧
          ∃ a ∈ db'.answers, a.id = r.answers_id ∧
            a.correct = c.answers.correct ∧ a.part = c.answers.part ∧
            a.incorrect = c.answers.incorrect := by
  intro batch
  induction batch with
  | nil =>
    intro db _ _ _ _
    exact ⟨db, rfl, fun c hc => absurd hc (List.not_mem_nil c)⟩
  | cons c cs ih =>
    intro db hwf hnd hex htags
    obtain ⟨w1, w2, w3, w4, w5, w6, w7, w8, w9⟩ := hwf
    rcases applyUpdate_ok_exists w3 (hex c (List.mem_cons_self _ _))
      (htags c (List.mem_cons_self _ _)) with ⟨db1, ha⟩
    have hwf1 : WF db1 := applyUpdate_WF ⟨w1, w2, w3, w4, w5, w6, w7, w8, w9⟩ ha
    rcases applyUpdate_ok_shape ha with
      ⟨r0, hr0, hcards, hanswers, -, -⟩
    have hr0mem : r0 ∈ db.cards := List.mem_of_find?_eq_some hr0
    have hr0id : r0.id = c.id := by
      have := List.find?_some hr0
      simpa using this
    rcases ih db1 hwf1 (by
        rw [List.map_cons, List.nodup_cons] at hnd
        exact hnd.2) (by
        intro c' hc'
        rcases hex c' (List.mem_cons_of_mem _ hc') with ⟨r, hr, hid⟩
        exact ⟨updateCardRow c r, by rw [hcards]; exact List.mem_map_of_mem _ hr,
          by rw [updateCardRow_id]; exact hid⟩) (by
        intro c' hc'
        exact htags c' (List.mem_cons_of_mem _ hc'))
      with ⟨db', hloop, hvals⟩
    refine ⟨db', by simp only [updateLoop]; rw [ha]; exact hloop, ?_⟩
    intro c' hc'
    rcases List.mem_cons.mp hc' with rfl | hc''
    · -- the head card: its row and stats row are written in db1 and survive
      have hr1 : updateCardRow c' r0 ∈ db1.cards := by
        rw [hcards]
        exact List.mem_map_of_mem _ hr0mem
      rcases w9 r0 hr0mem with ⟨a0, ha0, ha0id⟩
      have ha1 : updateAnswerRow c' r0.answers_id a0 ∈ db1.answers := by
        rw [hanswers]
        exact List.mem_map_of_mem _ ha0
      have hcnotin : ∀ c'' ∈ cs, c''.id ≠ (updateCardRow c' r0).id := by
        rw [List.map_cons, List.nodup_cons] at hnd
        intro c'' hc'' he
        exact hnd.1 (by
          rw [updateCardRow_id, hr0id] at he
          exact he ▸ List.mem_map_of_mem (fun x => x.id) hc'')
      rcases (updateLoop_ok_frame cs db1 db' hwf1 hloop).2.2.2
          (updateCardRow c' r0) hr1 hcnotin with ⟨hrmem, hansmem, -⟩
      refine ⟨updateCardRow c' r0, hrmem, ?_⟩
      rw [updateCardRow_of_eq hr0id]
      refine ⟨hr0id, rfl, rfl, rfl, rfl, ?_⟩
      refine ⟨updateAnswerRow c' r0.answers_id a0, ?_, ?_⟩
      · apply hansmem _ ha1
        rw [updateAnswerRow_id]
        exact ha0id.trans ((updateCardRow_frame c' r0).2.2.2).symm
      · rw [updateAnswerRow_of_eq ha0id]
        exact ⟨ha0id, rfl, rfl, rfl⟩
    · exact hvals c' hc''

/-! ### `add_cards` lemmas -/

/-- Normal form of one insert-loop iteration: the fresh `answers` row, the
fresh `cards` row with the defaults, then the tag loop. -/
theorem applyInsert_eq (db : DB) (n : NewCard) :
    applyInsert db n = insertTagLinks (newCardRow db n).id n.tags
      { answers := db.answers ++ [newAnswerRow db],
        cards := db.cards ++ [newCardRow db n],
        tags := db.tags,
        card_tags := db.card_tags } := by
  unfold applyInsert newCardRow newAnswerRow
  rfl

theorem applyInsert_ok_exists {db : DB} {n : NewCard}
    (hnd : (db.tags.map (fun t => t.id)).Nodup)
    (htag : (n.tags.map strLower).Nodup)
    (hvalid : ∀ ct ∈ db.card_tags, ∃ r ∈ db.cards, r.id = ct.card_id) :
    ∃ db', applyInsert db n = .ok db' := by
  rw [applyInsert_eq]
  apply insertTagLinks_ok_exists _ _ _ (by exact hnd) htag
  intro ct hct hcc
  exfalso
  rcases hvalid ct (by exact hct) with ⟨r, hr, hid⟩
  have hle : r.id ≤ maxId (db.cards.map (fun r => r.id)) :=
    le_maxId (List.mem_map_of_mem _ hr)
  have hcc' : ct.card_id = maxId (db.cards.map (fun r => r.id)) + 1 := hcc
  omega

theorem update_cards_of_loop_ok {batch : List CardUpdate} {db db' : DB}
    (h : updateLoop batch db = .ok db') : update_cards batch db = (db', none) := by
  unfold update_cards
  rw [h]

theorem update_cards_of_loop_error {batch : List CardUpdate} {db : DB} {e : DbErr}
    (h : updateLoop batch db = .error e) : update_cards batch db = (db, some e) := by
  unfold update_cards
  rw [h]

theorem add_cards_of_loop_ok {batch : List NewCard} {db db' : DB}
    (h : insertLoop batch db = .ok db') : add_cards batch db = (db', none) := by
  unfold add_cards
  rw [h]

theorem add_cards_of_loop_error {batch : List NewCard} {db : DB} {e : DbErr}
    (h : insertLoop batch db = .error e) : add_cards batch db = (db, some e) := by
  unfold add_cards
  rw [h]

theorem updateLoop_tags_mono :
    ∀ (batch : List CardUpdate) (db db' : DB),
      updateLoop batch db = .ok db' → ∀ t ∈ db.tags, t ∈ db'.tags := by
  intro batch
  induction batch with
  | nil =>
    intro db db' h
    simp only [updateLoop] at h
    cases h
    exact fun t ht => ht
  | cons c cs ih =>
    intro db db' h
    simp only [updateLoop] at h
    cases ha : applyUpdate db c with
    | error e => rw [ha] at h; cases h
    | ok db1 =>
      rw [ha] at h
      rcases applyUpdate_ok_shape ha with ⟨-, -, -, -, ⟨ts, hts⟩, -⟩
      intro t ht
      exact ih db1 db' h t (by rw [hts]; exact List.mem_append_left _ ht)

theorem insertLoop_tags_mono :
    ∀ (batch : List NewCard) (db db' : DB),
      insertLoop batch db = .ok db' → ∀ t ∈ db.tags, t ∈ db'.tags := by
  intro batch
  induction batch with
  | nil =>
    intro db db' h
    simp only [insertLoop] at h
    cases h
    exact fun t ht => ht
  | cons n ns ih =>
    intro db db' h
    simp only [insertLoop] at h
    cases ha : applyInsert db n with
    | error e => rw [ha] at h; cases h
    | ok db1 =>
      rw [ha] at h
      rw [applyInsert_eq] at ha
      rcases insertTagLinks_ok_shape n.tags _ _ db1 ha with ⟨-, -, ⟨ts, hts⟩, -⟩
      intro t ht
      exact ih db1 db' h t (by rw [hts]; exact List.mem_append_left _ ht)

theorem loadRows_ok_of_mem {db : DB} {rs : List CardRow} {cs : List Card}
    (h : loadRows db rs = .ok cs) {r : CardRow} (hr : r ∈ rs) {c : Card}
    (hc : loadRow db r = .ok (some c)) : c ∈ cs := by
  induction rs generalizing cs with
  | nil => cases hr
  | cons r' rs ih =>
    simp only [loadRows] at h
    cases hr' : loadRow db r' with
    | error e => rw [hr'] at h; cases h
    | ok oc =>
      rw [hr'] at h
      rcases List.mem_cons.mp hr with rfl | hmem
      · rw [hc] at hr'
        cases hr'
        cases hrs : loadRows db rs with
        | error e => rw [hrs] at h; cases h
        | ok cs' =>
          rw [hrs] at h
          cases h
          exact List.mem_cons_self _ _
      · cases oc with
        | none => exact ih h hmem
        | some c' =>
          cases hrs : loadRows db rs with
          | error e => rw [hrs] at h; cases h
          | ok cs' =>
            rw [hrs] at h
            cases h
            exact List.mem_cons_of_mem _ (ih hrs hmem)

theorem loadRows_ok_row {db : DB} {rs : List CardRow} {cs : List Card}
    (h : loadRows db rs = .ok cs) {r : CardRow} (hr : r ∈ rs) :
    ∃ o, loadRow db r = .ok o := by
  induction rs generalizing cs with
  | nil => cases hr
  | cons r' rs ih =>
    simp only [loadRows] at h
    cases hr' : loadRow db r' with
    | error e => rw [hr'] at h; cases h
    | ok oc =>
      rw [hr'] at h
      rcases List.mem_cons.mp hr with rfl | hmem
      · exact ⟨oc, hr'⟩
      · cases oc with
        | none => exact ih h hmem
        | some c' =>
          cases hrs : loadRows db rs with
          | error e => rw [hrs] at h; cases h
          | ok cs' => exact ih hrs hmem

/-- A card row with a stats row loads to a card whenever loading does not
raise. -/
theorem loadRow_some_of_valid {db : DB} {r : CardRow}
    (ho : ∃ o, loadRow db r = .ok o)
    (hans : ∃ a ∈ db.answers, a.id = r.answers_id) :
    ∃ c, loadRow db r = .ok (some c) := by
  rcases hans with ⟨a, ha, hid⟩
  have hsome : (db.answers.find? (fun x => x.id == r.answers_id)).isSome :=
    List.find?_isSome.mpr ⟨a, ha, by simp [hid]⟩
  rcases Option.isSome_iff_exists.mp hsome with ⟨a0, ha0⟩
  rcases ho with ⟨o, ho⟩
  unfold loadRow at ho ⊢
  rw [ha0] at ho ⊢
  cases hi : decodeImages r.images with
  | error e => rw [hi] at ho; cases ho
  | ok imgs => exact ⟨_, rfl⟩

theorem forall₂_countP_eq {R : CardRow → Card → Prop} :
    ∀ {l1 : List CardRow} {l2 : List Card}, List.Forall₂ R l1 l2 →
      (∀ r e, R r e → e.id = r.id) → ∀ (x : Int),
      l2.countP (fun e => e.id == x) = l1.countP (fun r => r.id == x) := by
  intro l1 l2 h hid
  induction h with
  | nil => intro x; rfl
  | cons h1 h2 ih =>
    intro x
    rw [List.countP_cons, List.countP_cons, ih x, hid _ _ h1]

theorem filtered_tag_ids_nodup {l : List CardTagRow} {x : Int} (hnd : l.Nodup) :
    ((l.filter (fun ct => ct.card_id == x)).map (fun ct => ct.tag_id)).Nodup := by
  apply List.Nodup.map_on ?_ (hnd.filter _)
  intro a ha b hb hab
  have ha' : a.card_id = x := by
    have := (List.mem_filter.mp ha).2
    simpa using this
  have hb' : b.card_id = x := by
    have := (List.mem_filter.mp hb).2
    simpa using this
  cases a
  cases b
  simp_all

/-- Looking up distinct tag ids in a table with distinct ids and names yields
distinct names. -/
theorem filterMap_names_nodup {db : DB}
    (w4 : (db.tags.map (fun t => t.name)).Nodup) :
    ∀ (ls : List CardTagRow), ((ls.map (fun ct => ct.tag_id)).Nodup) →
      (ls.filterMap (fun ct => (db.tags.find? (fun t => t.id == ct.tag_id)).map
        (fun t => t.name))).Nodup := by
  intro ls
  induction ls with
  | nil => intro _; exact List.nodup_nil
  | cons ct ls ih =>
    intro hnd
    rw [List.map_cons, List.nodup_cons] at hnd
    rw [List.filterMap_cons]
    cases hf : db.tags.find? (fun t => t.id == ct.tag_id) with
    | none => exact ih hnd.2
    | some t =>
      simp only [Option.map_some']
      rw [List.nodup_cons]
      refine ⟨?_, ih hnd.2⟩
      intro hmem
      rcases List.mem_filterMap.mp hmem with ⟨ct', hct', hf'⟩
      cases hft : db.tags.find? (fun t => t.id == ct'.tag_id) with
      | none => rw [hft] at hf'; cases hf'
      | some t' =>
        rw [hft] at hf'
        simp only [Option.map_some', Option.some.injEq] at hf'
        have ht' : t' = t := eq_of_mem_key (fun x : TagRow => x.name) w4
          (List.mem_of_find?_eq_some hft) (List.mem_of_find?_eq_some hf) hf'
        have hid1 : t.id = ct.tag_id := by
          have := List.find?_some hf
          simpa using this
        have hid2 : t'.id = ct'.tag_id := by
          have := List.find?_some hft
          simpa using this
        apply hnd.1
        rw [← hid1, ← ht', hid2]
        exact List.mem_map_of_mem _ hct'

theorem insertTagLinks_error_of_dup {names : List String} {cid : Int} {db : DB}
    (h : ¬ (names.map strLower).Nodup) :
    insertTagLinks cid names db = .error .constraint := by
  cases hr : insertTagLinks cid names db with
  | ok db' => exact absurd (insertTagLinks_ok_lower_nodup names cid db db' hr) h
  | error e => rw [insertTagLinks_error_constraint names cid db e hr]

/-- When some batch card has an unknown id (and nothing fails earlier), the
loop raises the `ValueError` for the first such id. -/
theorem updateLoop_error_of_missing :
    ∀ (batch : List CardUpdate) (db : DB),
      WF db →
      (∀ c ∈ batch, (c.tags.map strLower).Nodup) →
      (∃ c ∈ batch, ∀ r ∈ db.cards, r.id ≠ c.id) →
      ∃ i, updateLoop batch db = .error (.notFound i) := by
  intro batch
  induction batch with
  | nil =>
    intro db _ _ hmiss
    rcases hmiss with ⟨c, hc, -⟩
    cases hc
  | cons c cs ih =>
    intro db hwf htags hmiss
    by_cases hc : ∀ r ∈ db.cards, r.id ≠ c.id
    · refine ⟨c.id, ?_⟩
      simp only [updateLoop]
      rw [applyUpdate_error_of_missing hc]
    · push_neg at hc
      rcases hc with ⟨r, hr, hrid⟩
      have hex : ∃ r ∈ db.cards, r.id = c.id := ⟨r, hr, hrid⟩
      obtain ⟨w1, w2, w3, w4, w5, w6, w7, w8, w9⟩ := hwf
      rcases applyUpdate_ok_exists w3 hex (htags c (List.mem_cons_self _ _))
        with ⟨db1, ha⟩
      have hwf1 : WF db1 :=
        applyUpdate_WF ⟨w1, w2, w3, w4, w5, w6, w7, w8, w9⟩ ha
      rcases applyUpdate_ok_shape ha with ⟨r0, -, hcards, -, -, -⟩
      have hmiss1 : ∃ c' ∈ cs, ∀ r' ∈ db1.cards, r'.id ≠ c'.id := by
        rcases hmiss with ⟨c', hc', hmissing⟩
        rcases List.mem_cons.mp hc' with rfl | hcs
        · exact absurd hrid (hmissing r hr)
        · refine ⟨c', hcs, ?_⟩
          intro r' hr'
          rw [hcards] at hr'
          rcases List.mem_map.mp hr' with ⟨r'', hr'', rfl⟩
          rw [updateCardRow_id]
          exact hmissing r'' hr''
      rcases ih db1 hwf1 (fun c' hc' => htags c' (List.mem_cons_of_mem _ hc')) hmiss1
        with ⟨i, hloop⟩
      refine ⟨i, ?_⟩
      simp only [updateLoop]
      rw [ha]
      exact hloop

/-- No path through either writer removes a `tags` row. -/
theorem tags_never_deleted (db : DB) (batch : List CardUpdate)
    (newBatch : List NewCard) :
    (∀ t ∈ db.tags, t ∈ (update_cards batch db).1.tags) ∧
    (∀ t ∈ db.tags, t ∈ (add_cards newBatch db).1.tags) := by
  constructor
  · cases h : updateLoop batch db with
    | ok db' => rw [update_cards_of_loop_ok h]; exact updateLoop_tags_mono batch db db' h
    | error e => rw [update_cards_of_loop_error h]; exact fun t ht => ht
  · cases h : insertLoop newBatch db with
    | ok db' => rw [add_cards_of_loop_ok h]; exact insertLoop_tags_mono newBatch db db' h
    | error e => rw [add_cards_of_loop_error h]; exact fun t ht => ht

theorem resolveTag_of_found {db : DB} {tag : String} {t : TagRow}
    (h : db.tags.find? (fun x => x.name == (strLower tag)) = some t) :
    resolveTag db tag = (t.id, db) := by
  unfold resolveTag
  rw [h]

/-! ### Concrete stores used to witness the theorems -/

/-! ### The claims -/

/-- C1: any raised error leaves the committed store exactly as before the
call (full rollback), and a batch containing an unknown card id — with
nothing failing earlier, i.e. duplicate-free normalized tag lists — raises
the not-found error. -/
theorem update_cards_notfound_rollback (cards : List CardUpdate) (db : DB) :
    (∀ e, (update_cards cards db).2 = some e → (update_cards cards db).1 = db) ∧
    (WF db → (∀ c ∈ cards, (c.tags.map strLower).Nodup) →
      (∃ c ∈ cards, ∀ r ∈ db.cards, r.id ≠ c.id) →
      ∃ i, update_cards cards db = (db, some (DbErr.notFound i))) := by
  constructor
  · intro e he
    cases h : updateLoop cards db with
    | ok d =>
      rw [update_cards_of_loop_ok h] at he
      simp at he
    | error e' =>
      rw [update_cards_of_loop_error h]
  · intro hwf htags hmiss
    rcases updateLoop_error_of_missing cards db hwf htags hmiss with ⟨i, hloop⟩
    exact ⟨i, update_cards_of_loop_error hloop⟩

theorem update_cards_notfound_rollback_witness :
    WF fixtureDB ∧
    (∀ c ∈ [missingIdUpdate], (c.tags.map strLower).Nodup) ∧
    (∃ c ∈ [missingIdUpdate], ∀ r ∈ fixtureDB.cards, r.id ≠ c.id) ∧
    ∃ i, update_cards [missingIdUpdate] fixtureDB
      = (fixtureDB, some (DbErr.notFound i)) :=
  ⟨by decide, by decide, by decide,
    (update_cards_notfound_rollback [missingIdUpdate] fixtureDB).2
      (by decide) (by decide) (by decide)⟩

/-- C4: tag resolution lowercases the name and reuses an existing row, so
two case-variants of one name resolve to the same id without creating a
second row, and resolution never pushes the number of rows carrying one
normalized name above one. -/
theorem resolver_case_insensitive (db : DB) (a b : String)
    (ha : a ≠ "") (hb : b ≠ "") (hlow : (strLower a) = (strLower b)) :
    ((resolveTag (resolveTag db a).2 b).1 = (resolveTag db a).1 ∧
     (resolveTag (resolveTag db a).2 b).2 = (resolveTag db a).2) ∧
    (db.tags.countP (fun t => t.name == (strLower a)) ≤ 1 →
      (resolveTag db a).2.tags.countP (fun t => t.name == (strLower a)) ≤ 1) := by
  constructor
  · have hfind' : (resolveTag db a).2.tags.find? (fun t => t.name == (strLower b))
        = some { id := (resolveTag db a).1, name := (strLower a) } := by
      rw [← hlow]
      exact resolveTag_find db a
    rw [resolveTag_of_found hfind']
    exact ⟨rfl, rfl⟩
  · intro hle
    cases hf : db.tags.find? (fun t => t.name == (strLower a)) with
    | some t =>
      rw [resolveTag_of_found hf]
      exact hle
    | none =>
      unfold resolveTag
      rw [hf]
      simp only
      rw [List.countP_append]
      have h0 : db.tags.countP (fun t => t.name == (strLower a)) = 0 :=
        List.countP_eq_zero.mpr (fun t ht => List.find?_eq_none.mp hf t ht)
      rw [h0]
      simp

theorem resolver_case_insensitive_witness :
    ("PyThOn" : String) ≠ "" ∧ ("PYTHON" : String) ≠ "" ∧
    strLower "PyThOn" = strLower "PYTHON" ∧
    (((resolveTag (resolveTag fixtureDB "PyThOn").2 "PYTHON").1
        = (resolveTag fixtureDB "PyThOn").1 ∧
      (resolveTag (resolveTag fixtureDB "PyThOn").2 "PYTHON").2
        = (resolveTag fixtureDB "PyThOn").2) ∧
     (fixtureDB.tags.countP (fun t => t.name == strLower "PyThOn") ≤ 1 →
      (resolveTag fixtureDB "PyThOn").2.tags.countP
        (fun t => t.name == strLower "PyThOn") ≤ 1)) :=
  ⟨by decide, by decide, by decide,
    resolver_case_insensitive fixtureDB "PyThOn" "PYTHON"
      (by decide) (by decide) (by decide)⟩

/-- C5: a batch of distinct, existing ids with duplicate-free normalized tag
lists commits, and afterwards the (unique) row of each batch card carries the
supplied front, back, retired flag and streak, and the stats row reached
through that row's stored `answers_id` carries the supplied counts. -/
theorem update_cards_applies_values (batch : List CardUpdate) (db : DB)
    (hwf : WF db)
    (hnd : (batch.map (fun c => c.id)).Nodup)
    (hex : ∀ c ∈ batch, ∃ r ∈ db.cards, r.id = c.id)
    (htags : ∀ c ∈ batch, (c.tags.map strLower).Nodup) :
    (update_cards batch db).2 = none ∧
    ∀ c ∈ batch, ∃ r ∈ (update_cards batch db).1.cards,
      r.id = c.id ∧ r.front = c.front ∧ r.back = c.back ∧
      r.retired = (if c.retired then 1 else 0) ∧ r.streak = c.streak ∧
      (∀ r' ∈ (update_cards batch db).1.cards, r'.id = c.id → r' = r) ∧
      ∃ a ∈ (update_cards batch db).1.answers, a.id = r.answers_id ∧
        a.correct = c.answers.correct ∧ a.part = c.answers.part ∧
        a.incorrect = c.answers.incorrect := by
  rcases updateLoop_ok_values batch db hwf hnd hex htags with ⟨db', hloop, hvals⟩
  have heq := update_cards_of_loop_ok hloop
  rw [heq]
  refine ⟨rfl, ?_⟩
  intro c hc
  rcases hvals c hc with ⟨r, hr, hid, hfr, hbk, hrt, hstk, a, haa, h1, h2, h3, h4⟩
  have hwf' := (updateLoop_ok_frame batch db db' hwf hloop).1
  refine ⟨r, hr, hid, hfr, hbk, hrt, hstk, ?_, a, haa, h1, h2, h3, h4⟩
  intro r' hr' hid'
  exact eq_of_mem_key (fun x : CardRow => x.id) hwf'.1 hr' hr (by show r'.id = r.id; rw [hid', hid])

/-- C8: a committed batch changes nothing else: every card row keeps its id,
review dates, image text and stats reference, and a card outside the batch
keeps its whole row, its stats row and its joined tag names. -/
theorem update_cards_frame (batch : List CardUpdate) (db db' : DB)
    (hwf : WF db) (hok : update_cards batch db = (db', none)) :
    List.Forall₂ preservesCardFrame db.cards db'.cards ∧
    (∀ r ∈ db.cards, (∀ c ∈ batch, c.id ≠ r.id) →
      r ∈ db'.cards ∧
      (∀ a ∈ db.answers, a.id = r.answers_id → a ∈ db'.answers) ∧
      groupTagNames db' r.id = groupTagNames db r.id) := by
  have hloop : updateLoop batch db = .ok db' := by
    cases h : updateLoop batch db with
    | ok d =>
      rw [update_cards_of_loop_ok h] at hok
      have h1 : d = db' := congrArg Prod.fst hok
      exact congrArg Except.ok h1
    | error e =>
      rw [update_cards_of_loop_error h] at hok
      have h2 : (some e : Option DbErr) = none := congrArg Prod.snd hok
      simp at h2
  rcases updateLoop_ok_frame batch db db' hwf hloop with ⟨-, hfa, -, hframe⟩
  exact ⟨hfa, hframe⟩

theorem update_cards_ok_loop {batch : List CardUpdate} {db db' : DB}
    (hok : update_cards batch db = (db', none)) :
    updateLoop batch db = .ok db' := by
  cases h : updateLoop batch db with
  | ok d =>
    rw [update_cards_of_loop_ok h] at hok
    exact congrArg Except.ok (congrArg Prod.fst hok)
  | error e =>
    rw [update_cards_of_loop_error h] at hok
    have h2 : (some e : Option DbErr) = none := congrArg Prod.snd hok
    simp at h2

/-- C6: a stored card with no tag links is returned by `load_cards` exactly
once, with the empty tag list. -/
theorem load_zero_tag_card (db : DB) (cs : List Card) (r : CardRow)
    (hwf : WF db) (hload : load_cards db = .ok cs)
    (hr : r ∈ db.cards)
    (hnotag : ∀ ct ∈ db.card_tags, ct.card_id ≠ r.id) :
    cs.countP (fun e => e.id == r.id) = 1 ∧
    ∀ e ∈ cs, e.id = r.id → e.tags = [] := by
  obtain ⟨w1, w2, w3, w4, w5, w6, w7, w8, w9⟩ := hwf
  have hload' : loadRows db db.cards = .ok cs := hload
  have hall : ∀ r' ∈ db.cards, ∃ c, loadRow db r' = .ok (some c) := by
    intro r' hr'
    exact loadRow_some_of_valid (loadRows_ok_row hload' hr') (w9 r' hr')
  have hfa := loadRows_ok_forall₂ hload' hall
  have hid : ∀ (rr : CardRow) (e : Card), loadRow db rr = .ok (some e) → e.id = rr.id := by
    intro rr e hrow
    rcases loadRow_ok_some hrow with ⟨a, -, imgs, -, rfl⟩
    rfl
  constructor
  · rw [forall₂_countP_eq hfa hid r.id]
    have h2 : db.cards.countP (fun r' => r'.id == r.id)
        = (db.cards.map (fun x => x.id)).count r.id := by
      rw [List.count_eq_countP, List.countP_map]
      rfl
    rw [h2]
    exact List.count_eq_one_of_mem w1 (List.mem_map_of_mem _ hr)
  · intro e he heid
    rcases loadRows_ok_mem hload' e he with ⟨r', hr', hrow⟩
    rcases loadRow_ok_some hrow with ⟨a, -, imgs, -, rfl⟩
    have hr'id : r'.id = r.id := heid
    show pyTagsField (groupConcat (groupTagNames db r'.id)) = []
    rw [hr'id]
    unfold groupTagNames
    rw [links_filter_ne hnotag]
    rfl

theorem load_zero_tag_card_witness :
    WF noTagsDB ∧
    load_cards noTagsDB = .ok [noTagsCard] ∧
    noTagsRow ∈ noTagsDB.cards ∧
    ([noTagsCard].countP (fun e => e.id == noTagsRow.id) = 1 ∧
     ∀ e ∈ [noTagsCard], e.id = noTagsRow.id → e.tags = []) :=
  ⟨by decide, by rfl, by decide,
    load_zero_tag_card noTagsDB [noTagsCard] noTagsRow
      (by decide) (by rfl) (by decide) (by decide)⟩

/-- C7 counterexample: the round trip is NOT lossless for all tag names.
In `dbComma` the card is linked to exactly one tag, named `"a,b"`, but
`load_cards` splits the `GROUP_CONCAT` text at every comma and returns the
two names `"a"` and `"b"` — not equal (even as multisets) to the linked
names. -/
theorem load_tags_comma_counterexample :
    WF dbComma ∧
    groupTagNames dbComma 1 = ["a,b"] ∧
    load_cards dbComma = .ok
      [{ id := 1, front := "f", back := "b", last_asked := "2024-01-01",
         next_review := "2024-01-01", retired := false, tags := ["a", "b"],
         images := [], answers := { correct := 0, part := 0, incorrect := 0 },
         streak := 0 }] ∧
    ¬ (["a", "b"] : List String).Perm ["a,b"] := by
  exact ⟨by decide, by decide, by rfl, by decide⟩

/-- C7 amended: when every stored tag name is nonempty and contains no
comma, each loaded card's tag list is exactly the names linked to it by the
join — each current name exactly once, no duplicates. -/
theorem load_tags_roundtrip_comma_free (db : DB) (cs : List Card)
    (hwf : WF db) (hload : load_cards db = .ok cs)
    (hnames : ∀ t ∈ db.tags, t.name ≠ "" ∧ ',' ∉ t.name.toList) :
    ∀ e ∈ cs, ∃ r ∈ db.cards, e.id = r.id ∧
      e.tags = groupTagNames db r.id ∧ e.tags.Nodup := by
  obtain ⟨w1, w2, w3, w4, w5, w6, w7, w8, w9⟩ := hwf
  intro e he
  have hload' : loadRows db db.cards = .ok cs := hload
  rcases loadRows_ok_mem hload' e he with ⟨r, hr, hrow⟩
  rcases loadRow_ok_some hrow with ⟨a, -, imgs, -, rfl⟩
  have heq : pyTagsField (groupConcat (groupTagNames db r.id))
      = groupTagNames db r.id := by
    apply pyTagsField_groupConcat
    intro nm hnm
    unfold groupTagNames at hnm
    rcases List.mem_filterMap.mp hnm with ⟨ct, hct, hf⟩
    cases hft : db.tags.find? (fun t => t.id == ct.tag_id) with
    | none => rw [hft] at hf; cases hf
    | some t =>
      rw [hft] at hf
      simp only [Option.map_some', Option.some.injEq] at hf
      exact hf ▸ hnames t (List.mem_of_find?_eq_some hft)
  refine ⟨r, hr, rfl, heq, ?_⟩
  show (pyTagsField (groupConcat (groupTagNames db r.id))).Nodup
  rw [heq]
  unfold groupTagNames
  exact filterMap_names_nodup w4 _ (filtered_tag_ids_nodup w5)

theorem load_tags_roundtrip_comma_free_witness :
    WF fixtureDB ∧
    load_cards fixtureDB = .ok [fixtureCard] ∧
    (∀ t ∈ fixtureDB.tags, t.name ≠ "" ∧ ',' ∉ t.name.toList) ∧
    ∀ e ∈ [fixtureCard], ∃ r ∈ fixtureDB.cards, e.id = r.id ∧
      e.tags = groupTagNames fixtureDB r.id ∧ e.tags.Nodup :=
  ⟨by decide, by rfl, by decide,
    load_tags_roundtrip_comma_free fixtureDB [fixtureCard]
      (by decide) (by rfl) (by decide)⟩

/-- C9: every loaded card's retired field is the stored integer normalized
to a boolean, and its images field is the decoded stored text, with an
absent or empty stored text giving the empty list. -/
theorem load_normalizes_retired_and_images (db : DB) (cs : List Card)
    (hload : load_cards db = .ok cs) :
    ∀ e ∈ cs, ∃ r ∈ db.cards, e.id = r.id ∧
      e.retired = (r.retired != 0) ∧
      decodeImages r.images = .ok e.images ∧
      ((r.images = none ∨ r.images = some "") → e.images = []) := by
  intro e he
  rcases loadRows_ok_mem (show loadRows db db.cards = .ok cs from hload) e he
    with ⟨r, hr, hrow⟩
  rcases loadRow_ok_some hrow with ⟨a, -, imgs, hi, rfl⟩
  refine ⟨r, hr, rfl, rfl, hi, ?_⟩
  intro hcase
  show imgs = []
  rcases hcase with h0 | h0 <;> rw [h0] at hi <;>
    simpa [decodeImages] using hi.symm

/-- C10: a tag list with two case-variants of one name resolves both
variants to the same tag id, so the second `card_tags` insert violates the
composite primary key: both writers raise the store error and commit
nothing, rather than deduplicating. -/
theorem duplicate_case_variant_tags_error (db : DB) (c : CardUpdate) (n : NewCard)
    (hc : ¬ (c.tags.map strLower).Nodup)
    (hn : ¬ (n.tags.map strLower).Nodup)
    (hex : ∃ r ∈ db.cards, r.id = c.id) :
    update_cards [c] db = (db, some DbErr.constraint) ∧
    add_cards [n] db = (db, some DbErr.constraint) := by
  constructor
  · apply update_cards_of_loop_error
    simp only [updateLoop]
    rw [applyUpdate_error_of_dup_tags hex hc]
  · apply add_cards_of_loop_error
    simp only [insertLoop]
    have h : applyInsert db n = .error .constraint := by
      rw [applyInsert_eq]
      exact insertTagLinks_error_of_dup hn
    rw [h]

theorem duplicate_case_variant_tags_error_witness :
    ¬ (dupTagsUpdate.tags.map strLower).Nodup ∧
    (∃ r ∈ fixtureDB.cards, r.id = dupTagsUpdate.id) ∧
    update_cards [dupTagsUpdate] fixtureDB = (fixtureDB, some DbErr.constraint) ∧
    add_cards [dupTagsNew] fixtureDB = (fixtureDB, some DbErr.constraint) := by
  refine ⟨by decide, by decide, ?_⟩
  exact duplicate_case_variant_tags_error fixtureDB dupTagsUpdate dupTagsNew
    (by decide) (by decide) (by decide)

theorem update_cards_applies_values_witness :
    WF fixtureDB ∧
    (([valuesUpdate].map (fun c => c.id)).Nodup) ∧
    (∀ c ∈ [valuesUpdate], ∃ r ∈ fixtureDB.cards, r.id = c.id) ∧
    (∀ c ∈ [valuesUpdate], (c.tags.map strLower).Nodup) ∧
    (update_cards [valuesUpdate] fixtureDB).2 = none :=
  ⟨by decide, by decide, by decide, by decide,
    (update_cards_applies_values [valuesUpdate] fixtureDB
      (by decide) (by decide) (by decide) (by decide)).1⟩

theorem update_cards_frame_witness :
    WF fixtureDB ∧
    update_cards [valuesUpdate] fixtureDB = (fixtureUpdatedDB, none) ∧
    List.Forall₂ preservesCardFrame fixtureDB.cards fixtureUpdatedDB.cards :=
  ⟨by decide, by rfl,
    (update_cards_frame [valuesUpdate] fixtureDB fixtureUpdatedDB
      (by decide) (by rfl)).1⟩

theorem load_normalizes_retired_and_images_witness :
    load_cards fixtureDB = .ok [fixtureCard] ∧
    ∀ e ∈ [fixtureCard], ∃ r ∈ fixtureDB.cards, e.id = r.id ∧
      e.retired = (r.retired != 0) ∧
      decodeImages r.images = .ok e.images ∧
      ((r.images = none ∨ r.images = some "") → e.images = []) :=
  ⟨by rfl, load_normalizes_retired_and_images fixtureDB [fixtureCard] (by rfl)⟩

/-- Inserting any one card with duplicate-free, comma-free, nonempty
normalized tags and reloading shows the old cards unchanged followed by the
new card in its default state. -/
theorem insert_roundtrip_aux (db : DB) (cs : List Card) (n : NewCard)
    (hwf : WF db) (hload : load_cards db = .ok cs)
    (hnodup : (n.tags.map strLower).Nodup)
    (hnames : ∀ nm ∈ n.tags.map strLower, nm ≠ "" ∧ ',' ∉ nm.toList) :
    ∃ db', add_cards [n] db = (db', none) ∧
      load_cards db' = .ok (cs ++ [newLoadedCard db n]) := by
  obtain ⟨w1, w2, w3, w4, w5, w6, w7, w8, w9⟩ := hwf
  rcases applyInsert_ok_exists w3 hnodup w6 with ⟨db', ha⟩
  have hadd : add_cards [n] db = (db', none) := by
    apply add_cards_of_loop_ok
    simp only [insertLoop]
    rw [ha]
  refine ⟨db', hadd, ?_⟩
  have ha' := ha
  rw [applyInsert_eq] at ha'
  rcases insertTagLinks_ok_shape n.tags _ _ db' ha' with
    ⟨hansw, hcards, ⟨ts, hts⟩, -⟩
  rcases insertTagLinks_ok_tags n.tags _ _ db' (by exact w3) ha' with
    ⟨hnd', ⟨ls, hls, hfa⟩⟩
  have hansw' : db'.answers = db.answers ++ [newAnswerRow db] := hansw
  have hcards' : db'.cards = db.cards ++ [newCardRow db n] := hcards
  have hts' : db'.tags = db.tags ++ ts := hts
  have hls' : db'.card_tags = db.card_tags ++ ls := hls
  have hcid : ∀ l ∈ ls, l.card_id = (newCardRow db n).id := by
    intro l hl
    rcases forall₂_exists_left hfa l hl with ⟨nm, -, hrel⟩
    exact hrel.1
  have hstep1 : loadRows db' db.cards = .ok cs := by
    have hcongr : ∀ r ∈ db.cards, loadRow db' r = loadRow db r := by
      intro r hr
      apply loadRow_congr
      · rcases w9 r hr with ⟨a, hamem, haid⟩
        have hsome : (db.answers.find? (fun x => x.id == r.answers_id)).isSome :=
          List.find?_isSome.mpr ⟨a, hamem, by simp [haid]⟩
        rcases Option.isSome_iff_exists.mp hsome with ⟨a0, ha0⟩
        rw [hansw', find?_append_some ha0, ha0]
      · apply groupTagNames_congr
        · rw [hls', List.filter_append]
          have hne : ∀ l ∈ ls, l.card_id ≠ r.id := by
            intro l hl
            rw [hcid l hl]
            have hle : r.id ≤ maxId (db.cards.map (fun x => x.id)) :=
              le_maxId (List.mem_map_of_mem _ hr)
            show ¬ maxId (db.cards.map (fun x => x.id)) + 1 = r.id
            omega
          rw [@links_filter_ne r.id ls hne, List.append_nil]
        · exact ⟨ts, hts'⟩
        · intro ct hct _
          rcases w7 ct hct with ⟨t, ht, hid⟩
          exact List.find?_isSome.mpr ⟨t, ht, by simp [hid]⟩
    exact (loadRows_congr hcongr).trans hload
  have hgt : groupTagNames db' (newCardRow db n).id = n.tags.map strLower := by
    unfold groupTagNames
    rw [hls', List.filter_append]
    have hnone : ∀ l ∈ db.card_tags, l.card_id ≠ (newCardRow db n).id := by
      intro ct hct
      rcases w6 ct hct with ⟨r, hr, hid⟩
      have hle : r.id ≤ maxId (db.cards.map (fun x => x.id)) :=
        le_maxId (List.mem_map_of_mem _ hr)
      have hidr : ct.card_id = r.id := hid.symm
      show ¬ ct.card_id = maxId (db.cards.map (fun x => x.id)) + 1
      omega
    rw [@links_filter_ne (newCardRow db n).id db.card_tags hnone, List.nil_append,
        links_filter_self hcid]
    exact filterMap_linked_names hfa
  have hfind : db'.answers.find? (fun x => x.id == (newCardRow db n).answers_id)
      = some (newAnswerRow db) := by
    rw [hansw']
    have hnone : db.answers.find?
        (fun x => x.id == (newCardRow db n).answers_id) = none := by
      apply List.find?_eq_none.mpr
      intro a hamem
      have hle : a.id ≤ maxId (db.answers.map (fun x => x.id)) :=
        le_maxId (List.mem_map_of_mem _ hamem)
      simp only [beq_iff_eq]
      show ¬ a.id = maxId (db.answers.map (fun x => x.id)) + 1
      omega
    rw [find?_append_none hnone]
    apply List.find?_cons_of_pos
    show ((newAnswerRow db).id == (newCardRow db n).answers_id) = true
    simp [newAnswerRow, newCardRow]
  have hnewrow : loadRow db' (newCardRow db n) = .ok (some (newLoadedCard db n)) := by
    refine (loadRow_ok_intro hfind
      (show decodeImages (newCardRow db n).images = .ok [] from rfl)).trans ?_
    have htags : pyTagsField (groupConcat (groupTagNames db' (newCardRow db n).id))
        = n.tags.map strLower := by
      rw [hgt]
      exact pyTagsField_groupConcat hnames
    rw [htags]
    rfl
  have hsingle : loadRows db' [newCardRow db n] = .ok [newLoadedCard db n] := by
    simp only [loadRows]
    rw [hnewrow]
  show loadRows db' db'.cards = .ok (cs ++ [newLoadedCard db n])
  rw [hcards']
  exact loadRows_append_ok hstep1 hsingle

/-- C2: inserting one card with front `"A"`, back `"B"`, tags `["X","Y"]`
into a well-formed store and reloading yields the previous cards plus
exactly one new card: front `"A"`, back `"B"`, tags `["x","y"]` (a set equal
to `{"x","y"}`), streak 0, retired false, all counts 0, both dates the fixed
default `"2024-01-01"`. -/
theorem insert_then_load_roundtrip (db : DB) (cs : List Card)
    (hwf : WF db) (hload : load_cards db = .ok cs) :
    ∃ db', add_cards [{ front := "A", back := "B", tags := ["X", "Y"] }] db
        = (db', none) ∧
      load_cards db' = .ok (cs ++
        [{ id := maxId (db.cards.map (fun r => r.id)) + 1, front := "A",
           back := "B", last_asked := "2024-01-01", next_review := "2024-01-01",
           retired := false, tags := ["x", "y"], images := [],
           answers := { correct := 0, part := 0, incorrect := 0 },
           streak := 0 }]) := by
  rcases insert_roundtrip_aux db cs { front := "A", back := "B", tags := ["X", "Y"] }
    hwf hload (by decide) (by decide) with ⟨db', h1, h2⟩
  refine ⟨db', h1, ?_⟩
  have he : newLoadedCard db { front := "A", back := "B", tags := ["X", "Y"] }
      = { id := maxId (db.cards.map (fun r => r.id)) + 1, front := "A",
          back := "B", last_asked := "2024-01-01", next_review := "2024-01-01",
          retired := false, tags := ["x", "y"], images := [],
          answers := { correct := 0, part := 0, incorrect := 0 },
          streak := 0 } := by
    unfold newLoadedCard
    rw [show (["X", "Y"] : List String).map strLower = ["x", "y"] from by decide]
  rw [← he]
  exact h2

theorem insert_then_load_roundtrip_witness :
    WF emptyDB ∧ load_cards emptyDB = .ok [] ∧
    ∃ db', add_cards [{ front := "A", back := "B", tags := ["X", "Y"] }] emptyDB
        = (db', none) ∧
      load_cards db' = .ok ([] ++
        [{ id := maxId (emptyDB.cards.map (fun r => r.id)) + 1, front := "A",
           back := "B", last_asked := "2024-01-01", next_review := "2024-01-01",
           retired := false, tags := ["x", "y"], images := [],
           answers := { correct := 0, part := 0, incorrect := 0 },
           streak := 0 }]) :=
  ⟨by decide, by rfl, insert_then_load_roundtrip emptyDB [] (by decide) (by rfl)⟩

/-- C3: a committed single-card update replaces the card's tag set wholesale
— a subsequent load shows exactly the new normalized names for that card —
while the unlinked tag's row survives, because no operation of this core
ever removes a `tags` row. -/
theorem update_full_tag_replace (db : DB) (c : CardUpdate) (db' : DB)
    (cs' : List Card)
    (hwf : WF db)
    (hok : update_cards [c] db = (db', none))
    (hload : load_cards db' = .ok cs')
    (hnames : ∀ nm ∈ c.tags.map strLower, nm ≠ "" ∧ ',' ∉ nm.toList) :
    ((∃ e ∈ cs', e.id = c.id) ∧
     (∀ e ∈ cs', e.id = c.id → e.tags = c.tags.map strLower)) ∧
    (∀ t ∈ db.tags, t ∈ db'.tags) ∧
    (∀ (d : DB) (batch : List CardUpdate) (nb : List NewCard),
      (∀ t ∈ d.tags, t ∈ (update_cards batch d).1.tags) ∧
      (∀ t ∈ d.tags, t ∈ (add_cards nb d).1.tags)) := by
  have hloop := update_cards_ok_loop hok
  have happly : applyUpdate db c = .ok db' := by
    simp only [updateLoop] at hloop
    cases ha : applyUpdate db c with
    | error e => rw [ha] at hloop; cases hloop
    | ok d1 =>
      rw [ha] at hloop
      simp only [updateLoop] at hloop
      exact congrArg Except.ok (Except.ok.inj hloop)
  obtain ⟨w1, w2, w3, w4, w5, w6, w7, w8, w9⟩ := hwf
  rcases applyUpdate_ok_spec w3 happly with
    ⟨r0, hr0, hcards, hanswers, ⟨ts, hts⟩, hnd', ⟨ls, hls, hfa⟩⟩
  have hwf' : WF db' :=
    applyUpdate_WF ⟨w1, w2, w3, w4, w5, w6, w7, w8, w9⟩ happly
  have hr0id : r0.id = c.id := by
    have := List.find?_some hr0
    simpa using this
  have hload' : loadRows db' db'.cards = .ok cs' := hload
  have hcid : ∀ l ∈ ls, l.card_id = c.id := by
    intro l hl
    rcases forall₂_exists_left hfa l hl with ⟨nm, -, hrel⟩
    exact hrel.1
  have hgt : groupTagNames db' c.id = c.tags.map strLower := by
    unfold groupTagNames
    rw [hls, List.filter_append, filter_not_eq_nil, List.nil_append,
        links_filter_self hcid]
    exact filterMap_linked_names hfa
  refine ⟨⟨?_, ?_⟩, ?_, ?_⟩
  · have hr1mem : updateCardRow c r0 ∈ db'.cards := by
      rw [hcards]
      exact List.mem_map_of_mem _ (List.mem_of_find?_eq_some hr0)
    have hval := hwf'.2.2.2.2.2.2.2.2 _ hr1mem
    rcases loadRow_some_of_valid (loadRows_ok_row hload' hr1mem) hval
      with ⟨e1, hrow1⟩
    refine ⟨e1, loadRows_ok_of_mem hload' hr1mem hrow1, ?_⟩
    rcases loadRow_ok_some hrow1 with ⟨a, -, imgs, -, rfl⟩
    show (updateCardRow c r0).id = c.id
    rw [updateCardRow_id]
    exact hr0id
  · intro e he heid
    rcases loadRows_ok_mem hload' e he with ⟨r', hr', hrow⟩
    rcases loadRow_ok_some hrow with ⟨a, -, imgs, -, rfl⟩
    have hr'id : r'.id = c.id := heid
    show pyTagsField (groupConcat (groupTagNames db' r'.id)) = c.tags.map strLower
    rw [hr'id, hgt]
    exact pyTagsField_groupConcat hnames
  · intro t ht
    rw [hts]
    exact List.mem_append_left _ ht
  · intro d batch nb
    exact tags_never_deleted d batch nb

theorem update_full_tag_replace_witness :
    WF twoTagsDB ∧
    update_cards [replaceTagsUpdate] twoTagsDB = (twoTagsUpdatedDB, none) ∧
    load_cards twoTagsUpdatedDB = .ok [twoTagsUpdatedCard] ∧
    ({ id := 1, name := "a" } : TagRow) ∈ twoTagsUpdatedDB.tags ∧
    ((∃ e ∈ [twoTagsUpdatedCard], e.id = replaceTagsUpdate.id) ∧
     (∀ e ∈ [twoTagsUpdatedCard], e.id = replaceTagsUpdate.id →
        e.tags = replaceTagsUpdate.tags.map strLower)) :=
  ⟨by decide, by rfl, by rfl, by decide,
    (update_full_tag_replace twoTagsDB replaceTagsUpdate twoTagsUpdatedDB
      [twoTagsUpdatedCard] (by decide) (by rfl) (by rfl) (by decide)).1⟩

end Persist
